import Mathlib

/-!
Verification of the CSV-processing core of paypay-csv-optimizer-moneyforward
(`app/services/csv-processor.ts`).

The TypeScript source is shallowly embedded:
* a parsed CSV record (`Record`, a JavaScript object mapping column names to
  strings, with possibly-absent columns) becomes an association list `Rec`
  with JavaScript object semantics for read (`recGet`) and assignment
  (`recSet`: update in place, insert at the end on first use);
* `Date` values become epoch milliseconds (`Int`); the host time zone offset
  (minutes east of UTC) is an explicit parameter `tz`, so every theorem holds
  for every host time zone;
* the combined-payment regular expression `/([^,]+?)\s*\((\d+|[\d,]+)円\)/g`
  and `String.prototype.matchAll` are embedded as an explicit scanner
  (`scanMatches`) that mirrors the backtracking search: leftmost match wins,
  group 1 is lazy, and after a match the scan resumes at the match end;
* the JavaScript `Date` constructor on ISO Date Time Format strings is
  embedded as `jsNewDate` (calendar-validated, as browser engines do);
  legacy implementation-defined fallback formats (e.g. "October 24, 2025"),
  extended ±YYYYYY years and sub-second precision other than exactly three
  digits are not modelled;
* the `csv-stringify` serializer (default options: delimiter `,`, quote `"`,
  record delimiter `\n`, quoting exactly the fields that contain one of those
  characters, doubling embedded quotes) and the `csv-parse` reader with
  `columns: true` are embedded at the character level (`encodeCsv`,
  `readCsv`, `stringifyRecords`, `parseCsvWithColumns`).
-/

namespace PayPayCsv

/-- A parsed CSV record: a JavaScript object from column names to string
values.  Absent columns read as `undefined`, i.e. `none`. -/
abbrev Rec := List (String × String)

/-- JavaScript property read `record[key]`: the value stored under `key`,
`none` when the key is absent. -/
def recGet : Rec → String → Option String
  | [], _ => none
  | (k, v) :: rest, key => if k = key then some v else recGet rest key

/-- JavaScript property assignment `record[key] = v`: overwrite in place when
the key exists (keeping its position), append at the end otherwise. -/
def recSet : Rec → String → String → Rec
  | [], key, v => [(key, v)]
  | (k, w) :: rest, key, v =>
    if k = key then (key, v) :: rest else (k, w) :: recSet rest key v

/-- Column labels used by the PayPay CSV export. -/
def colDate : String := "取引日"

def colOut : String := "出金金額（円）"

def colIn : String := "入金金額（円）"

def colPayee : String := "取引先"

def colMethod : String := "取引方法"

/-- Column labels used by the MoneyForward ME CSV export. -/
def colCalc : String := "計算対象"

def colMfDate : String := "日付"

def colMfContent : String := "内容"

def colMfAmount : String := "金額（円）"

def colMfInstitution : String := "保有金融機関"

/-- ASCII digit, the JavaScript regex class `\d`. -/
def isDigitChar (c : Char) : Bool := '0' ≤ c && c ≤ '9'

/-- The JavaScript whitespace class `\s` (WhiteSpace ∪ LineTerminator). -/
def isJsSpace (c : Char) : Bool :=
  c = ' ' || c = '\t' || c = '\n' || c = '\r' || c = '\x0b' || c = '\x0c' ||
  c = '\u00A0' || c = '\u1680' || ('\u2000' ≤ c && c ≤ '\u200A') ||
  c = '\u2028' || c = '\u2029' || c = '\u202F' || c = '\u205F' ||
  c = '\u3000' || c = '\uFEFF'

/-- Character admitted by the regex class `[\d,]`. -/
def isAmountChar (c : Char) : Bool := isDigitChar c || c = ','

/-- `String.prototype.trim`: strip JavaScript whitespace from both ends. -/
def jsTrim (s : List Char) : List Char :=
  ((s.dropWhile isJsSpace).reverse.dropWhile isJsSpace).reverse

/-- `String.prototype.replace(/,/g, "")`: remove every comma. -/
def stripCommas (s : List Char) : List Char := s.filter (fun c => c ≠ ',')

/-- Attempt to match the tail `\s*\((\d+|[\d,]+)円\)` of the combined-payment
regex at the start of `s`; on success return the digits-and-commas group and
the remaining input.  Greedy `\s*` and the amount group need no backtracking:
shortening the whitespace run leaves a whitespace character where `(` must
match, and shortening the amount run leaves a `[\d,]` character where `円`
must match, so the maximal runs are the only candidates; the `\d+`
alternative succeeds exactly when the maximal `[\d,]` run is comma-free, so
both alternatives yield the maximal run. -/
def matchTail (s : List Char) : Option (List Char × List Char) :=
  match s.dropWhile isJsSpace with
  | '(' :: s2 =>
    match s2.dropWhile isAmountChar with
    | '円' :: ')' :: s4 =>
      if (s2.takeWhile isAmountChar).isEmpty then none
      else some (s2.takeWhile isAmountChar, s4)
    | _ => none
  | _ => none

/-- Attempt to match the whole combined-payment regex at the start of `s`:
group 1 is the lazy `[^,]+?`, extended one character at a time until the tail
matches; a comma ends the attempt.  Returns group 1, group 2 and the
remaining input after the match. -/
def tryG1 : List Char → Option (List Char × List Char × List Char)
  | [] => none
  | c :: rest =>
    if c = ',' then none
    else
      match matchTail rest with
      | some (g2, s4) => some ([c], g2, s4)
      | none =>
        match tryG1 rest with
        | some (g1, g2, s4) => some (c :: g1, g2, s4)
        | none => none

theorem matchTail_length {s g2 s4 : List Char}
    (h : matchTail s = some (g2, s4)) : s4.length < s.length := by
  unfold matchTail at h
  split at h
  · rename_i s2 heq
    split at h
    · rename_i s4' heq2
      split at h
      · exact absurd h (by simp)
      · obtain ⟨rfl, rfl⟩ : g2 = s2.takeWhile isAmountChar ∧ s4 = s4' := by
          simpa [eq_comm] using h
        have h1 : (s.dropWhile isJsSpace).length ≤ s.length :=
          (List.dropWhile_suffix isJsSpace).length_le
        have h2 : (s2.dropWhile isAmountChar).length ≤ s2.length :=
          (List.dropWhile_suffix isAmountChar).length_le
        rw [heq] at h1
        rw [heq2] at h2
        simp at h1 h2
        omega
    · exact absurd h (by simp)
  · exact absurd h (by simp)

theorem tryG1_length {s g1 g2 s4 : List Char}
    (h : tryG1 s = some (g1, g2, s4)) : s4.length < s.length := by
  induction s generalizing g1 g2 s4 with
  | nil => exact absurd h (by simp [tryG1])
  | cons c rest ih =>
    unfold tryG1 at h
    by_cases hc : c = ','
    · simp [hc] at h
    · rw [if_neg hc] at h
      rcases hmt : matchTail rest with _ | ⟨g2m, s4m⟩ <;> rw [hmt] at h
      · rcases hg : tryG1 rest with _ | ⟨⟨g1t, g2t, s4t⟩⟩ <;> rw [hg] at h
        · exact absurd h (by simp)
        · simp only [Option.some.injEq, Prod.mk.injEq] at h
          obtain ⟨-, -, h3⟩ := h
          subst h3
          exact Nat.lt_succ_of_lt (ih hg)
      · simp only [Option.some.injEq, Prod.mk.injEq] at h
        obtain ⟨-, -, h3⟩ := h
        subst h3
        exact Nat.lt_succ_of_lt (matchTail_length hmt)

/-- One fuel-indexed step layer of `matchAll`: scan left to right; at each
position try the regex, record the captured groups of the leftmost match and
resume after it, otherwise advance one character.  The fuel only bounds the
recursion depth; by `tryG1_length` a successful match always consumes at
least one character, so `s.length` fuel is enough. -/
def scanMatchesAux : Nat → List Char → List (List Char × List Char)
  | 0, _ => []
  | _, [] => []
  | fuel + 1, c :: rest =>
    match tryG1 (c :: rest) with
    | some (g1, g2, s4) => (g1, g2) :: scanMatchesAux fuel s4
    | none => scanMatchesAux fuel rest

/-- `transactionMethod.matchAll(combinedPaymentRegex)`, as the list of
(group 1, group 2) capture pairs in match order. -/
def scanMatches (s : List Char) : List (List Char × List Char) :=
  scanMatchesAux s.length s

theorem scanMatchesAux_fuel {fuel : Nat} {s : List Char}
    (h : s.length ≤ fuel) : scanMatchesAux fuel s = scanMatchesAux s.length s := by
  induction fuel using Nat.strong_induction_on generalizing s with
  | _ fuel ih =>
    match fuel, s with
    | 0, [] => rfl
    | 0, c :: rest => simp at h
    | fuel + 1, [] => rfl
    | fuel + 1, c :: rest =>
      simp only [List.length_cons] at h
      simp only [List.length_cons, scanMatchesAux]
      rcases hg : tryG1 (c :: rest) with _ | ⟨g1, g2, s4⟩ <;> dsimp only
      · have h1 : rest.length ≤ fuel := by omega
        rw [ih fuel (by omega) h1, ih rest.length (by omega) (le_refl _)]
      · have hlt := tryG1_length hg
        simp only [List.length_cons] at hlt
        have h1 : s4.length ≤ fuel := by omega
        have h2 : s4.length ≤ rest.length := by omega
        rw [ih fuel (by omega) h1, ih rest.length (by omega) h2]

/-- Days since the Unix epoch of a proleptic-Gregorian civil date. -/
def daysFromCivil (y m d : Int) : Int :=
  let y2 := if m ≤ 2 then y - 1 else y
  let era := (if 0 ≤ y2 then y2 else y2 - 399) / 400
  let yoe := y2 - era * 400
  let mp := (m + 9) % 12
  let doy := (153 * mp + 2) / 5 + d - 1
  let doe := yoe * 365 + yoe / 4 - yoe / 100 + doy
  era * 146097 + doe - 719468

def isLeapYear (y : Nat) : Bool := (y % 4 = 0 && y % 100 ≠ 0) || y % 400 = 0

def daysInMonth (y m : Nat) : Nat :=
  if m = 2 then (if isLeapYear y then 29 else 28)
  else if m = 4 || m = 6 || m = 9 || m = 11 then 30
  else 31

/-- Numeric value of a digit string (most significant digit first). -/
def digitsToNat (l : List Char) : Nat :=
  l.foldl (fun a c => a * 10 + (c.toNat - '0'.toNat)) 0

/-- Read exactly `n` ASCII digits from the front of `s`. -/
def readFixedDigits (n : Nat) (s : List Char) : Option (Nat × List Char) :=
  if (s.take n).length = n ∧ (s.take n).all isDigitChar = true then
    some (digitsToNat (s.take n), s.drop n)
  else none

/-- Month/day part of an ISO date after the year: `-MM[-DD]`; both default
to 1 when absent. -/
def readMonthDay : List Char → Option (Nat × Nat × List Char)
  | '-' :: r =>
    match readFixedDigits 2 r with
    | none => none
    | some (m, r2) =>
      match r2 with
      | '-' :: r3 =>
        match readFixedDigits 2 r3 with
        | none => none
        | some (d, r4) => some (m, d, r4)
      | _ => some (m, 1, r2)
  | r => some (1, 1, r)

/-- Time of day `HH:mm[:ss[.sss]]`: hours, minutes, seconds, milliseconds
and the remaining input. -/
def readTime (s : List Char) : Option (Nat × Nat × Nat × Nat × List Char) :=
  match readFixedDigits 2 s with
  | none => none
  | some (hh, r) =>
    match r with
    | ':' :: r2 =>
      match readFixedDigits 2 r2 with
      | none => none
      | some (mi, r3) =>
        match r3 with
        | ':' :: r4 =>
          match readFixedDigits 2 r4 with
          | none => none
          | some (ss, r5) =>
            match r5 with
            | '.' :: r6 =>
              match readFixedDigits 3 r6 with
              | none => none
              | some (ms, r7) => some (hh, mi, ss, ms, r7)
            | _ => some (hh, mi, ss, 0, r5)
        | _ => some (hh, mi, 0, 0, r3)
    | _ => none

/-- Trailing time-zone designator: empty (local time, offset `tz` minutes
east of UTC), `Z`, or `±HH:mm`; returns the offset in minutes east of UTC. -/
def readOffset (tz : Int) : List Char → Option Int
  | [] => some tz
  | ['Z'] => some 0
  | c :: r =>
    if c = '+' ∨ c = '-' then
      match readFixedDigits 2 r with
      | none => none
      | some (oh, r2) =>
        match r2 with
        | ':' :: r3 =>
          match readFixedDigits 2 r3 with
          | none => none
          | some (om, r4) =>
            if r4 = [] ∧ oh ≤ 23 ∧ om ≤ 59 then
              some (if c = '-' then -(oh * 60 + om : Int) else (oh * 60 + om : Int))
            else none
        | _ => none
    else none

/-- `new Date(string)`: the ECMAScript Date Time String Format, with the
calendar validation browser engines perform; epoch milliseconds on success,
`none` on a malformed string or an invalid date.  A date-only string is UTC;
a date-time string without a designator is local time at offset `tz`. -/
def jsNewDate (tz : Int) (s : List Char) : Option Int :=
  match readFixedDigits 4 s with
  | none => none
  | some (y, r) =>
    match readMonthDay r with
    | none => none
    | some (m, d, r2) =>
      if 1 ≤ m ∧ m ≤ 12 ∧ 1 ≤ d ∧ d ≤ daysInMonth y m then
        match r2 with
        | [] => some (daysFromCivil y m d * 86400000)
        | 'T' :: r3 =>
          match readTime r3 with
          | none => none
          | some (hh, mi, ss, ms, r4) =>
            match readOffset tz r4 with
            | none => none
            | some off =>
              if (hh ≤ 23 ∨ (hh = 24 ∧ mi = 0 ∧ ss = 0 ∧ ms = 0)) ∧
                  mi ≤ 59 ∧ ss ≤ 59 then
                some (daysFromCivil y m d * 86400000 +
                  ((hh * 3600 + mi * 60 + ss : Int) * 1000 + ms) - off * 60000)
              else none
        | _ => none
      else none

/-- `dateValue.replace(/\//g, "-")`. -/
def slashesToDashes (s : List Char) : List Char :=
  s.map (fun c => if c = '/' then '-' else c)

/-- `dateStr.replace(" ", "T")`: only the first space is replaced. -/
def replaceFirstSpace : List Char → List Char
  | [] => []
  | c :: rest => if c = ' ' then 'T' :: rest else c :: replaceFirstSpace rest

/-- `dateStr.includes(" ")`. -/
def hasSpaceChar : List Char → Bool
  | [] => false
  | c :: rest => c = ' ' || hasSpaceChar rest

/-- `parseDate` (csv-processor.ts:29): `undefined` and `""` give `null`;
slashes become dashes; a string with a space has its first space replaced by
`T` and gets `+09:00` appended; one without gets `T00:00:00+09:00` appended;
the result goes to `new Date`.  The surrounding `try`/`catch` is vacuous:
every operation used is total. -/
def parseDate (tz : Int) (dateValue : Option String) : Option Int :=
  match dateValue with
  | none => none
  | some dv =>
    if dv = "" then none
    else
      let dateStr := slashesToDashes dv.data
      if hasSpaceChar dateStr then
        jsNewDate tz (replaceFirstSpace dateStr ++ ('+' :: '0' :: '9' :: ':' :: '0' :: '0' :: []))
      else
        jsNewDate tz (dateStr ++ ('T' :: '0' :: '0' :: ':' :: '0' :: '0' :: ':' :: '0' :: '0' :: '+' :: '0' :: '9' :: ':' :: '0' :: '0' :: []))

/-- `updateDateRange` (csv-processor.ts:52): widen each bound only when it is
absent or strictly exceeded. -/
def updateDateRange (date : Int) (minDate maxDate : Option Int) :
    Option Int × Option Int :=
  let newMinDate := match minDate with
    | none => date
    | some m => if date < m then date else m
  let newMaxDate := match maxDate with
    | none => date
    | some m => if date > m then date else m
  (some newMinDate, some newMaxDate)


/-- A single extracted transaction (`PayPayTransaction`). -/
structure PayPayTransaction where
  key : String
  record : Rec
  paymentMethod : String
deriving DecidableEq

/-- JavaScript template-literal rendering of a possibly-undefined string:
`undefined` prints as the text "undefined". -/
def optStr : Option String → String
  | none => "undefined"
  | some s => s

/-- `str.split(" ")[0]`: the part of the string before its first space. -/
def jsSplitFirst (s : String) : String :=
  String.mk (s.data.takeWhile (fun c => c ≠ ' '))

/-- `isExpense` (csv-processor.ts:153): the row is an expense exactly when
the outgoing-amount column is not the literal "-"; an absent column also
counts as an expense. -/
def isExpense (record : Rec) : Bool :=
  decide (recGet record colOut ≠ some "-")

/-- `createTransaction` (csv-processor.ts:155): derive the dedup key
`${dateKey}_${amountKey}_${name}_${contentKey}` and package the record. -/
def createTransaction (isExp : Bool) (name amountStr : String) (rec : Rec) :
    PayPayTransaction :=
  let dateKey := (recGet rec colDate).map jsSplitFirst
  let amountKey := if isExp then "-" ++ amountStr else amountStr
  let contentKey := recGet rec colPayee
  { key := optStr dateKey ++ "_" ++ amountKey ++ "_" ++ name ++ "_" ++
      optStr contentKey,
    record := rec, paymentMethod := name }

/-- The shallow copy `{ ...record }` with the payment-method column and then
the outgoing-amount column overwritten (csv-processor.ts:182). -/
def splitRecord (record : Rec) (name amount : String) : Rec :=
  recSet (recSet record colMethod name) colOut amount

/-- The per-row body of the extraction loop (csv-processor.ts:153): the
transactions contributed by one source row. -/
def rowTransactions (record : Rec) : List PayPayTransaction :=
  let isExp := isExpense record
  match recGet record colMethod with
  | none => []
  | some transactionMethod =>
    if transactionMethod = "" then []
    else
      let ms := scanMatches transactionMethod.data
      if ms.isEmpty then
        let amountValue := if isExp then recGet record colOut
          else recGet record colIn
        match amountValue with
        | none => []
        | some av =>
          let amount := String.mk (stripCommas av.data)
          if amount = "" then []
          else [createTransaction isExp transactionMethod amount record]
      else
        ms.flatMap (fun p =>
          let name := String.mk (jsTrim p.1)
          let amount := String.mk (stripCommas p.2)
          if name ≠ "" ∧ amount ≠ "" then
            [createTransaction isExp name amount (splitRecord record name amount)]
          else [])

structure FileStats where
  count : Nat
  startDate : Option Int
  endDate : Option Int
deriving DecidableEq

structure ExtractResult where
  transactions : List PayPayTransaction
  stats : FileStats
  headers : List String
deriving DecidableEq

/-- The per-row statistics-and-transactions update of the extraction loop. -/
def extractFold (tz : Int) (acc : List PayPayTransaction × Option Int × Option Int)
    (record : Rec) : List PayPayTransaction × Option Int × Option Int :=
  let range := match parseDate tz (recGet record colDate) with
    | some date => updateDateRange date acc.2.1 acc.2.2
    | none => (acc.2.1, acc.2.2)
  (acc.1 ++ rowTransactions record, range.1, range.2)

/-- `extractTransactionsFromPayPayCsv` (csv-processor.ts:119), applied to
already-parsed records; `headers` is the key list of the first record
(`Object.keys(records[0] ?? {})`). -/
def extractTransactionsFromPayPayCsv (tz : Int) (records : List Rec) :
    ExtractResult :=
  let headers := (records.head?.getD []).map Prod.fst
  let res := records.foldl (extractFold tz) ([], none, none)
  { transactions := res.1,
    stats := { count := records.length, startDate := res.2.1, endDate := res.2.2 },
    headers := headers }

/-- `Set.prototype.add`: membership-preserving insert. -/
def setAdd (s : List String) (k : String) : List String :=
  if k ∈ s then s else s ++ [k]

structure MfmeState where
  exclusionSet : List String
  count : Nat
  minDate : Option Int
  maxDate : Option Int
deriving DecidableEq

/-- The dedup key `${dateStr}_${amount}_${institution}_${content}` of an
aggregator record (csv-processor.ts:95). -/
def mfmeKey (record : Rec) : String :=
  optStr (recGet record colMfDate) ++ "_" ++ optStr (recGet record colMfAmount) ++
    "_" ++ optStr (recGet record colMfInstitution) ++ "_" ++
    optStr (recGet record colMfContent)

/-- The per-record body of `createMfmeExclusionSet`'s loop
(csv-processor.ts:79): count, widen the date range from the record's own
date column, and add the dedup key unless a required field is missing or the
inclusion flag is the literal "0". -/
def mfmeStep (tz : Int) (st : MfmeState) (record : Rec) : MfmeState :=
  let dateStr := recGet record colMfDate
  let amount := recGet record colMfAmount
  let institution := recGet record colMfInstitution
  let content := recGet record colMfContent
  let range := match parseDate tz dateStr with
    | some date => updateDateRange date st.minDate st.maxDate
    | none => (st.minDate, st.maxDate)
  let keep : MfmeState :=
    { exclusionSet := st.exclusionSet, count := st.count + 1,
      minDate := range.1, maxDate := range.2 }
  match dateStr, amount, institution, content with
  | some ds, some am, some ins, some co =>
    if ds = "" ∨ am = "" ∨ ins = "" ∨ co = "" then keep
    else if recGet record colCalc = some "0" then keep
    else
      { exclusionSet := setAdd st.exclusionSet (ds ++ "_" ++ am ++ "_" ++ ins ++ "_" ++ co),
        count := keep.count, minDate := keep.minDate, maxDate := keep.maxDate }
  | _, _, _, _ => keep

/-- `createMfmeExclusionSet` (csv-processor.ts:62), over already-parsed CSV
record lists. -/
def createMfmeExclusionSet (tz : Int) (mfmeCsvs : List (List Rec)) : MfmeState :=
  mfmeCsvs.foldl (fun st records => records.foldl (mfmeStep tz) st)
    { exclusionSet := [], count := 0, minDate := none, maxDate := none }

/-- Association-list read, the JavaScript object lookup used for groups. -/
def alistGet {α : Type} : List (String × α) → String → Option α
  | [], _ => none
  | (k, v) :: rest, key => if k = key then some v else alistGet rest key

/-- `groupedRecords[method].push(row)`, creating the group on first use
(csv-processor.ts:225). -/
def pushGroup (gs : List (String × List Rec)) (k : String) (r : Rec) :
    List (String × List Rec) :=
  match gs with
  | [] => [(k, [r])]
  | (k2, rs) :: rest =>
    if k2 = k then (k2, rs ++ [r]) :: rest else (k2, rs) :: pushGroup rest k r

/-- The loop of `filterTransactions` with explicit accumulator. -/
def filterAux (exclusionSet : List String) :
    List PayPayTransaction → List (String × List Rec) × Nat →
      List (String × List Rec) × Nat
  | [], acc => acc
  | tx :: rest, (gs, d) =>
    if tx.key ∈ exclusionSet then filterAux exclusionSet rest (gs, d + 1)
    else filterAux exclusionSet rest (pushGroup gs tx.paymentMethod tx.record, d)

/-- `filterTransactions` (csv-processor.ts:209). -/
def filterTransactions (transactions : List PayPayTransaction)
    (exclusionSet : List String) : List (String × List Rec) × Nat :=
  filterAux exclusionSet transactions ([], 0)

/-- `csv-stringify` quotes a field exactly when it contains the delimiter,
the quote or the record delimiter. -/
def needsQuoting (s : List Char) : Bool :=
  s.any (fun c => c = ',' || c = '"' || c = '\n')

def escapeQuotes : List Char → List Char
  | [] => []
  | c :: rest =>
    if c = '"' then '"' :: '"' :: escapeQuotes rest else c :: escapeQuotes rest

def encodeField (s : List Char) : List Char :=
  if needsQuoting s then '"' :: (escapeQuotes s ++ ['"']) else s

def encodeRow : List (List Char) → List Char
  | [] => []
  | [f] => encodeField f
  | f :: f2 :: rest => encodeField f ++ ',' :: encodeRow (f2 :: rest)

/-- CSV text of the rows: comma-separated encoded fields, every record
terminated by the record delimiter. -/
def encodeCsv (rows : List (List (List Char))) : List Char :=
  rows.foldr (fun r acc => encodeRow r ++ '\n' :: acc) []

/-- `stringify(records, { header: true, columns: headers })`: a header row,
then for each record the values of the header columns in header order; an
absent column is cast to the empty string. -/
def stringifyRecords (headers : List String) (records : List Rec) : String :=
  String.mk (encodeCsv ((headers.map String.data) ::
    records.map (fun r => headers.map (fun h => ((recGet r h).getD "").data))))

/-- Read the body of a quoted CSV field after its opening quote: a doubled
quote is a literal quote, a single closing quote ends the field. -/
def readQuoted : List Char → Option (List Char × List Char)
  | [] => none
  | c :: rest =>
    if c = '"' then
      match rest with
      | [] => some ([], [])
      | c2 :: rest2 =>
        if c2 = '"' then (readQuoted rest2).map (fun p => ('"' :: p.1, p.2))
        else some ([], rest)
    else (readQuoted rest).map (fun p => (c :: p.1, p.2))

def isFieldBreak (c : Char) : Bool := c = ',' || c = '\n'

/-- Read one CSV field; the boolean is true when the field was terminated by
a comma (the record continues), false at a record delimiter or end of
input. -/
def readField (s : List Char) : Option (List Char × Bool × List Char) :=
  match s with
  | [] => some ([], false, [])
  | c :: rest =>
    if c = '"' then
      match readQuoted rest with
      | none => none
      | some (f, r) =>
        match r with
        | [] => some (f, false, [])
        | ',' :: r2 => some (f, true, r2)
        | '\n' :: r2 => some (f, false, r2)
        | _ => none
    else
      match s.dropWhile (fun c => !isFieldBreak c) with
      | [] => some (s.takeWhile (fun c => !isFieldBreak c), false, [])
      | ',' :: r2 => some (s.takeWhile (fun c => !isFieldBreak c), true, r2)
      | _ :: r2 => some (s.takeWhile (fun c => !isFieldBreak c), false, r2)

/-- Read one CSV record: fields separated by commas, ended by a record
delimiter or end of input.  The fuel bounds the number of fields; any fuel
of at least the field count gives the same result. -/
def readRecordAux : Nat → List Char → Option (List (List Char) × List Char)
  | 0, _ => none
  | fuel + 1, s =>
    match readField s with
    | none => none
    | some (f, true, rest) =>
      match readRecordAux fuel rest with
      | none => none
      | some (fs, rest2) => some (f :: fs, rest2)
    | some (f, false, rest) => some ([f], rest)

/-- Read a whole CSV text as a list of records; the fuel bounds the record
count. -/
def readCsvAux : Nat → List Char → Option (List (List (List Char)))
  | _, [] => some []
  | 0, _ :: _ => none
  | fuel + 1, c :: rest =>
    match readRecordAux ((c :: rest).length + 1) (c :: rest) with
    | none => none
    | some (r, rest2) =>
      match readCsvAux fuel rest2 with
      | none => none
      | some rs => some (r :: rs)

def readCsv (s : List Char) : Option (List (List (List Char))) :=
  readCsvAux s.length s

/-- `parse(text, { columns: true })`: the first record names the columns;
every further record must have as many fields and becomes an object pairing
the column names with the fields. -/
def parseCsvWithColumns (s : String) : Option (List Rec) :=
  match readCsv s.data with
  | none => none
  | some [] => some []
  | some (headerRow :: dataRows) =>
    if dataRows.all (fun row => row.length = headerRow.length) then
      some (dataRows.map (fun row =>
        (headerRow.map String.mk).zip (row.map String.mk)))
    else none

structure ProcessedCsvChunk where
  data : String
  count : Nat
  startDate : Option Int
  endDate : Option Int
  imported : Bool
deriving DecidableEq

/-- Date range of one chunk, computed over the chunk's own rows only
(csv-processor.ts:256). -/
def chunkDateRange (tz : Int) (records : List Rec) : Option Int × Option Int :=
  records.foldl (fun mm record =>
    match parseDate tz (recGet record colDate) with
    | some date => updateDateRange date mm.1 mm.2
    | none => mm) (none, none)

/-- One output chunk (csv-processor.ts:270): serialized rows, row count,
chunk-local date range, `imported` initialized to false. -/
def chunkFromRecords (tz : Int) (headers : List String)
    (chunkOfRecords : List Rec) : ProcessedCsvChunk :=
  { data := stringifyRecords headers chunkOfRecords,
    count := chunkOfRecords.length,
    startDate := (chunkDateRange tz chunkOfRecords).1,
    endDate := (chunkDateRange tz chunkOfRecords).2,
    imported := false }

/-- The slicing loop `for (i = 0; i < n; i += 100) slice(i, i + 100)`
(csv-processor.ts:253), fuel-indexed; a nonempty list always loses at least
one element per step, so `l.length` fuel is enough. -/
def sliceChunksAux {α : Type} : Nat → List α → List (List α)
  | 0, _ => []
  | _ + 1, [] => []
  | fuel + 1, a :: l => ((a :: l).take 100) :: sliceChunksAux fuel ((a :: l).drop 100)

def sliceChunks {α : Type} (l : List α) : List (List α) :=
  sliceChunksAux l.length l

/-- `createChunksFromGroupedRecords` (csv-processor.ts:242): for every
nonempty group, in order, the list of its 100-row windows as chunks. -/
def createChunksFromGroupedRecords (tz : Int)
    (groupedRecords : List (String × List Rec)) (headers : List String) :
    List (String × List ProcessedCsvChunk) :=
  groupedRecords.filterMap (fun p =>
    if p.2.isEmpty then none
    else some (p.1, (sliceChunks p.2).map (chunkFromRecords tz headers)))


/-! ### Helper lemmas on records -/

theorem recGet_recSet_self (r : Rec) (k v : String) :
    recGet (recSet r k v) k = some v := by
  induction r with
  | nil => simp [recSet, recGet]
  | cons p rest ih =>
    obtain ⟨k2, w⟩ := p
    by_cases h : k2 = k
    · simp [recSet, recGet, h]
    · simp [recSet, recGet, h, ih]

theorem recGet_recSet_ne (r : Rec) (k kq v : String) (h : kq ≠ k) :
    recGet (recSet r k v) kq = recGet r kq := by
  induction r with
  | nil => simp [recSet, recGet, Ne.symm h]
  | cons p rest ih =>
    obtain ⟨k2, w⟩ := p
    by_cases h2 : k2 = k
    · subst h2
      simp [recSet, recGet, Ne.symm h]
    · by_cases h3 : k2 = kq <;> simp [recSet, recGet, h2, h3, ih, h]

/-- JavaScript truthiness of a possibly-undefined string: present and
nonempty. -/
def truthy : Option String → Bool
  | none => false
  | some s => decide (s ≠ "")

/-! ### C8: updateDateRange -/

/-- C8.  `updateDateRange` returns `(date, date)` when both bounds are
absent; otherwise each bound is replaced only when strictly exceeded, ties
keeping the existing bound; consequently, over any sequence of calls the
range only widens. -/
theorem updateDateRange_widens (date : Int) (minDate maxDate : Option Int) :
    updateDateRange date none none = (some date, some date)
    ∧ (∀ m : Int, date < m →
        (updateDateRange date (some m) maxDate).1 = some date)
    ∧ (∀ m : Int, ¬ date < m →
        (updateDateRange date (some m) maxDate).1 = some m)
    ∧ (∀ m : Int, date > m →
        (updateDateRange date minDate (some m)).2 = some date)
    ∧ (∀ m : Int, ¬ date > m →
        (updateDateRange date minDate (some m)).2 = some m)
    ∧ (∀ (dates : List Int) (m0 : Int), minDate = some m0 →
        ∃ m1, (dates.foldl (fun mm d => updateDateRange d mm.1 mm.2)
            (minDate, maxDate)).1 = some m1 ∧ m1 ≤ m0)
    ∧ (∀ (dates : List Int) (m0 : Int), maxDate = some m0 →
        ∃ m1, (dates.foldl (fun mm d => updateDateRange d mm.1 mm.2)
            (minDate, maxDate)).2 = some m1 ∧ m0 ≤ m1) := by
  refine ⟨rfl, ?_, ?_, ?_, ?_, ?_, ?_⟩
  · intro m h
    simp [updateDateRange, h]
  · intro m h
    simp [updateDateRange, h]
  · intro m h
    simp [updateDateRange, h]
  · intro m h
    simp [updateDateRange, h]
  · intro dates
    induction dates generalizing minDate maxDate with
    | nil => exact fun m0 h => ⟨m0, by simpa using h⟩
    | cons d rest ih =>
      intro m0 h
      subst h
      rcases ih (updateDateRange d (some m0) maxDate).1
          (updateDateRange d (some m0) maxDate).2
          (if d < m0 then d else m0) rfl with ⟨m1, hm1, hle⟩
      refine ⟨m1, by simpa using hm1, le_trans hle ?_⟩
      split <;> omega
  · intro dates
    induction dates generalizing minDate maxDate with
    | nil => exact fun m0 h => ⟨m0, by simpa using h⟩
    | cons d rest ih =>
      intro m0 h
      subst h
      rcases ih (updateDateRange d minDate (some m0)).1
          (updateDateRange d minDate (some m0)).2
          (if d > m0 then d else m0) rfl with ⟨m1, hm1, hle⟩
      refine ⟨m1, by simpa using hm1, le_trans ?_ hle⟩
      split <;> omega

/-- Witness for C8 at concrete inputs. -/
theorem updateDateRange_widens_witness :
    (updateDateRange 5 none none = (some 5, some 5))
    ∧ (updateDateRange 3 (some 4) (some 9)).1 = some 3
    ∧ (updateDateRange 4 (some 4) (some 9)).1 = some 4
    ∧ (updateDateRange 12 (some 4) (some 9)).2 = some 12
    ∧ (updateDateRange 9 (some 4) (some 9)).2 = some 9
    ∧ (∃ m1, (([3, 7] : List Int).foldl (fun mm d => updateDateRange d mm.1 mm.2)
        (some 4, some 9)).1 = some m1 ∧ m1 ≤ 4) :=
  ⟨(updateDateRange_widens 5 none none).1,
    (updateDateRange_widens 3 (some 4) (some 9)).2.1 4 (by decide),
    (updateDateRange_widens 4 (some 4) (some 9)).2.2.1 4 (by decide),
    (updateDateRange_widens 12 (some 4) (some 9)).2.2.2.1 9 (by decide),
    (updateDateRange_widens 9 (some 4) (some 9)).2.2.2.2.1 9 (by decide),
    (updateDateRange_widens 3 (some 4) (some 9)).2.2.2.2.2.1 [3, 7] 4 rfl⟩

/-! ### Characterization of one aggregator-row step -/

theorem mfmeStep_count (tz : Int) (st : MfmeState) (record : Rec) :
    (mfmeStep tz st record).count = st.count + 1 := by
  simp only [mfmeStep]
  rcases hds : recGet record colMfDate with _ | ds <;>
    rcases ham : recGet record colMfAmount with _ | am <;>
    rcases hins : recGet record colMfInstitution with _ | ins <;>
    rcases hco : recGet record colMfContent with _ | co <;>
    simp only [hds, ham, hins, hco] <;>
    (try split_ifs) <;> rfl

theorem mfmeStep_range (tz : Int) (st : MfmeState) (record : Rec) :
    ((mfmeStep tz st record).minDate, (mfmeStep tz st record).maxDate) =
      (match parseDate tz (recGet record colMfDate) with
        | some d => updateDateRange d st.minDate st.maxDate
        | none => (st.minDate, st.maxDate)) := by
  simp only [mfmeStep]
  rcases hds : recGet record colMfDate with _ | ds <;>
    rcases ham : recGet record colMfAmount with _ | am <;>
    rcases hins : recGet record colMfInstitution with _ | ins <;>
    rcases hco : recGet record colMfContent with _ | co <;>
    simp only [hds, ham, hins, hco] <;>
    rcases hpd : parseDate tz (recGet record colMfDate) with _ | d <;>
    simp only [hds] at hpd <;> simp only [hpd] <;>
    (try split_ifs) <;> rfl

theorem mfmeStep_exclusionSet (tz : Int) (st : MfmeState) (record : Rec) :
    (mfmeStep tz st record).exclusionSet =
      if truthy (recGet record colMfDate) = true ∧
          truthy (recGet record colMfAmount) = true ∧
          truthy (recGet record colMfInstitution) = true ∧
          truthy (recGet record colMfContent) = true ∧
          recGet record colCalc ≠ some "0"
      then setAdd st.exclusionSet (mfmeKey record)
      else st.exclusionSet := by
  simp only [mfmeStep]
  rcases hds : recGet record colMfDate with _ | ds <;>
    rcases ham : recGet record colMfAmount with _ | am <;>
    rcases hins : recGet record colMfInstitution with _ | ins <;>
    rcases hco : recGet record colMfContent with _ | co <;>
    simp only [hds, ham, hins, hco, truthy] <;>
    (try simp only [mfmeKey, hds, ham, hins, hco, optStr]) <;>
    (try split_ifs with h1 h2) <;>
    simp_all <;> tauto

/-! ### C4 and C9: exclusion-set construction -/

/-- C4.  Every aggregator row increments `count` and updates the running
date range from its own date column; these effects are independent of the
row's inclusion-flag column, and a row whose inclusion flag is the literal
"0" leaves the exclusion set unchanged. -/
theorem createMfmeExclusionSet_count_range_flag (tz : Int) (st : MfmeState)
    (record : Rec) :
    (∀ csvs : List (List Rec), createMfmeExclusionSet tz csvs =
      csvs.foldl (fun s rs => rs.foldl (mfmeStep tz) s)
        { exclusionSet := [], count := 0, minDate := none, maxDate := none })
    ∧ (mfmeStep tz st record).count = st.count + 1
    ∧ ((mfmeStep tz st record).minDate, (mfmeStep tz st record).maxDate) =
        (match parseDate tz (recGet record colMfDate) with
          | some d => updateDateRange d st.minDate st.maxDate
          | none => (st.minDate, st.maxDate))
    ∧ (∀ v, (mfmeStep tz st (recSet record colCalc v)).count =
          (mfmeStep tz st record).count
        ∧ (mfmeStep tz st (recSet record colCalc v)).minDate =
          (mfmeStep tz st record).minDate
        ∧ (mfmeStep tz st (recSet record colCalc v)).maxDate =
          (mfmeStep tz st record).maxDate)
    ∧ (recGet record colCalc = some "0" →
        (mfmeStep tz st record).exclusionSet = st.exclusionSet) := by
  refine ⟨fun csvs => rfl, mfmeStep_count tz st record,
    mfmeStep_range tz st record, ?_, ?_⟩
  · intro v
    have h1 := mfmeStep_range tz st (recSet record colCalc v)
    have h2 := mfmeStep_range tz st record
    rw [recGet_recSet_ne record colCalc colMfDate v (by decide)] at h1
    have hp := h1.trans h2.symm
    exact ⟨(mfmeStep_count tz st (recSet record colCalc v)).trans
        (mfmeStep_count tz st record).symm,
      congrArg Prod.fst hp, congrArg Prod.snd hp⟩
  · intro h0
    rw [mfmeStep_exclusionSet]
    rw [if_neg]
    rintro ⟨-, -, -, -, hne⟩
    exact hne h0

/-- Witness for C4: a row with inclusion flag "0" still counts but adds no
key. -/
theorem createMfmeExclusionSet_count_range_flag_witness :
    (mfmeStep 540 { exclusionSet := ["k0"], count := 2, minDate := none, maxDate := none }
        [(colCalc, "0"), (colMfDate, "2025/10/24"), (colMfAmount, "100"),
          (colMfInstitution, "X"), (colMfContent, "Y")]).exclusionSet = ["k0"]
    ∧ (mfmeStep 540 { exclusionSet := ["k0"], count := 2, minDate := none, maxDate := none }
        [(colCalc, "0"), (colMfDate, "2025/10/24"), (colMfAmount, "100"),
          (colMfInstitution, "X"), (colMfContent, "Y")]).count = 3 := by
  refine ⟨(createMfmeExclusionSet_count_range_flag 540
      { exclusionSet := ["k0"], count := 2, minDate := none, maxDate := none }
      [(colCalc, "0"), (colMfDate, "2025/10/24"), (colMfAmount, "100"),
        (colMfInstitution, "X"), (colMfContent, "Y")]).2.2.2.2 (by decide), ?_⟩
  exact (createMfmeExclusionSet_count_range_flag 540
      { exclusionSet := ["k0"], count := 2, minDate := none, maxDate := none }
      [(colCalc, "0"), (colMfDate, "2025/10/24"), (colMfAmount, "100"),
        (colMfInstitution, "X"), (colMfContent, "Y")]).2.1

/-- C9.  A dedup key is added only when the date, amount, institution and
content fields are all present and nonempty (and the inclusion flag is not
"0"); a row missing any of them leaves the set unchanged while still being
counted and still feeding the date range. -/
theorem mfmeStep_key_requires_fields (tz : Int) (st : MfmeState) (record : Rec) :
    ((mfmeStep tz st record).exclusionSet =
      if truthy (recGet record colMfDate) = true ∧
          truthy (recGet record colMfAmount) = true ∧
          truthy (recGet record colMfInstitution) = true ∧
          truthy (recGet record colMfContent) = true ∧
          recGet record colCalc ≠ some "0"
      then setAdd st.exclusionSet (mfmeKey record)
      else st.exclusionSet)
    ∧ (¬ (truthy (recGet record colMfDate) = true ∧
          truthy (recGet record colMfAmount) = true ∧
          truthy (recGet record colMfInstitution) = true ∧
          truthy (recGet record colMfContent) = true) →
        (mfmeStep tz st record).exclusionSet = st.exclusionSet
        ∧ (mfmeStep tz st record).count = st.count + 1
        ∧ ((mfmeStep tz st record).minDate, (mfmeStep tz st record).maxDate) =
            (match parseDate tz (recGet record colMfDate) with
              | some d => updateDateRange d st.minDate st.maxDate
              | none => (st.minDate, st.maxDate))) := by
  refine ⟨mfmeStep_exclusionSet tz st record, fun h => ⟨?_, mfmeStep_count tz st record,
    mfmeStep_range tz st record⟩⟩
  rw [mfmeStep_exclusionSet, if_neg]
  rintro ⟨h1, h2, h3, h4, -⟩
  exact h ⟨h1, h2, h3, h4⟩

/-- Witness for C9: a row missing the content column adds no key but is
counted. -/
theorem mfmeStep_key_requires_fields_witness :
    (mfmeStep 540 { exclusionSet := ["k0"], count := 2, minDate := none, maxDate := none }
        [(colMfDate, "2025/10/24"), (colMfAmount, "100"),
          (colMfInstitution, "X")]).exclusionSet = ["k0"]
    ∧ (mfmeStep 540 { exclusionSet := ["k0"], count := 2, minDate := none, maxDate := none }
        [(colMfDate, "2025/10/24"), (colMfAmount, "100"),
          (colMfInstitution, "X")]).count = 3 := by
  have h := (mfmeStep_key_requires_fields 540
      { exclusionSet := ["k0"], count := 2, minDate := none, maxDate := none }
      [(colMfDate, "2025/10/24"), (colMfAmount, "100"),
        (colMfInstitution, "X")]).2 (by decide)
  exact ⟨h.1, h.2.1⟩

/-! ### C2: filterTransactions -/

/-- The transactions that survive filtering and belong to group `m`, in
source order. -/
def survivors (exclusionSet : List String) (m : String)
    (txs : List PayPayTransaction) : List PayPayTransaction :=
  txs.filter (fun t => decide (¬ t.key ∈ exclusionSet ∧ t.paymentMethod = m))

theorem alistGet_pushGroup_self (gs : List (String × List Rec)) (k : String)
    (r : Rec) :
    alistGet (pushGroup gs k r) k = some ((alistGet gs k).getD [] ++ [r]) := by
  induction gs with
  | nil => simp [pushGroup, alistGet]
  | cons p rest ih =>
    obtain ⟨k2, rs⟩ := p
    by_cases h : k2 = k
    · subst h
      simp [pushGroup, alistGet]
    · simp [pushGroup, alistGet, h, ih]

theorem alistGet_pushGroup_ne (gs : List (String × List Rec)) (k kq : String)
    (r : Rec) (h : kq ≠ k) :
    alistGet (pushGroup gs k r) kq = alistGet gs kq := by
  induction gs with
  | nil => simp [pushGroup, alistGet, Ne.symm h]
  | cons p rest ih =>
    obtain ⟨k2, rs⟩ := p
    by_cases h2 : k2 = k
    · subst h2
      simp [pushGroup, alistGet, Ne.symm h]
    · by_cases h3 : k2 = kq <;> simp [pushGroup, alistGet, h2, h3, ih, h]

theorem pushGroup_keys (gs : List (String × List Rec)) (k : String) (r : Rec) :
    (pushGroup gs k r).map Prod.fst =
      if k ∈ gs.map Prod.fst then gs.map Prod.fst
      else gs.map Prod.fst ++ [k] := by
  induction gs with
  | nil => simp [pushGroup]
  | cons p rest ih =>
    obtain ⟨k2, rs⟩ := p
    by_cases h : k2 = k
    · subst h
      simp [pushGroup]
    · simp only [pushGroup, if_neg h, List.map_cons, ih]
      by_cases h2 : k ∈ rest.map Prod.fst <;>
        simp [h2, Ne.symm h]

theorem pushGroup_nodup (gs : List (String × List Rec)) (k : String) (r : Rec)
    (h : (gs.map Prod.fst).Nodup) :
    ((pushGroup gs k r).map Prod.fst).Nodup := by
  rw [pushGroup_keys]
  by_cases h2 : k ∈ gs.map Prod.fst
  · simpa [h2] using h
  · simp only [if_neg h2]
    simp [List.nodup_append, h2, h]

theorem pushGroup_nonempty (gs : List (String × List Rec)) (k : String)
    (r : Rec) (h : ∀ p ∈ gs, p.2 ≠ []) :
    ∀ p ∈ pushGroup gs k r, p.2 ≠ [] := by
  induction gs with
  | nil => simp [pushGroup]
  | cons q rest ih =>
    obtain ⟨k2, rs⟩ := q
    by_cases h2 : k2 = k
    · subst h2
      intro p hp
      rcases (by simpa [pushGroup] using hp : p = (k2, rs ++ [r]) ∨ p ∈ rest) with
          rfl | hin
      · simp
      · exact h p (by simp [hin])
    · intro p hp
      rcases (by simpa [pushGroup, h2] using hp :
          p = (k2, rs) ∨ p ∈ pushGroup rest k r) with rfl | hin
      · exact h (k2, rs) (by simp)
      · exact ih (fun q hq => h q (by simp [hq])) p hin

theorem filterAux_lookup (exclusionSet : List String)
    (txs : List PayPayTransaction) (gs : List (String × List Rec)) (d : Nat)
    (m : String) :
    alistGet (filterAux exclusionSet txs (gs, d)).1 m =
      if alistGet gs m = none ∧ survivors exclusionSet m txs = [] then none
      else some ((alistGet gs m).getD [] ++
        (survivors exclusionSet m txs).map PayPayTransaction.record) := by
  induction txs generalizing gs d with
  | nil =>
    rcases h : alistGet gs m with _ | l <;> simp [filterAux, survivors, h]
  | cons tx rest ih =>
    by_cases hmem : tx.key ∈ exclusionSet
    · have hstep : filterAux exclusionSet (tx :: rest) (gs, d) =
          filterAux exclusionSet rest (gs, d + 1) := by
        simp [filterAux, hmem]
      have hsurv : survivors exclusionSet m (tx :: rest) =
          survivors exclusionSet m rest := by
        simp [survivors, hmem]
      rw [hstep, hsurv, ih]
    · have hstep : filterAux exclusionSet (tx :: rest) (gs, d) =
          filterAux exclusionSet rest
            (pushGroup gs tx.paymentMethod tx.record, d) := by
        simp [filterAux, hmem]
      rw [hstep, ih]
      by_cases hpm : tx.paymentMethod = m
      · have hsurv : survivors exclusionSet m (tx :: rest) =
            tx :: survivors exclusionSet m rest := by
          simp [survivors, hmem, hpm]
        subst hpm
        rw [hsurv, alistGet_pushGroup_self gs tx.paymentMethod tx.record]
        rcases h : alistGet gs tx.paymentMethod with _ | l <;> simp [h]
      · have hsurv : survivors exclusionSet m (tx :: rest) =
            survivors exclusionSet m rest := by
          simp [survivors, hmem, hpm]
        rw [hsurv, alistGet_pushGroup_ne gs tx.paymentMethod m tx.record
          (Ne.symm hpm)]

theorem filterAux_dups (exclusionSet : List String)
    (txs : List PayPayTransaction) (gs : List (String × List Rec)) (d : Nat) :
    (filterAux exclusionSet txs (gs, d)).2 =
      d + (txs.filter (fun t => decide (t.key ∈ exclusionSet))).length := by
  induction txs generalizing gs d with
  | nil => simp [filterAux]
  | cons tx rest ih =>
    by_cases hmem : tx.key ∈ exclusionSet <;>
      simp [filterAux, hmem, ih] <;> omega

theorem filterAux_nodup (exclusionSet : List String)
    (txs : List PayPayTransaction) (gs : List (String × List Rec)) (d : Nat)
    (h : (gs.map Prod.fst).Nodup) :
    ((filterAux exclusionSet txs (gs, d)).1.map Prod.fst).Nodup := by
  induction txs generalizing gs d with
  | nil => simpa [filterAux] using h
  | cons tx rest ih =>
    by_cases hmem : tx.key ∈ exclusionSet
    · rw [(by simp [filterAux, hmem] : filterAux exclusionSet (tx :: rest) (gs, d) =
        filterAux exclusionSet rest (gs, d + 1))]
      exact ih _ _ h
    · rw [(by simp [filterAux, hmem] : filterAux exclusionSet (tx :: rest) (gs, d) =
        filterAux exclusionSet rest (pushGroup gs tx.paymentMethod tx.record, d))]
      exact ih _ _ (pushGroup_nodup gs tx.paymentMethod tx.record h)

theorem filterAux_nonempty (exclusionSet : List String)
    (txs : List PayPayTransaction) (gs : List (String × List Rec)) (d : Nat)
    (h : ∀ p ∈ gs, p.2 ≠ []) :
    ∀ p ∈ (filterAux exclusionSet txs (gs, d)).1, p.2 ≠ [] := by
  induction txs generalizing gs d with
  | nil => simpa [filterAux] using h
  | cons tx rest ih =>
    by_cases hmem : tx.key ∈ exclusionSet
    · rw [(by simp [filterAux, hmem] : filterAux exclusionSet (tx :: rest) (gs, d) =
        filterAux exclusionSet rest (gs, d + 1))]
      exact ih _ _ h
    · rw [(by simp [filterAux, hmem] : filterAux exclusionSet (tx :: rest) (gs, d) =
        filterAux exclusionSet rest (pushGroup gs tx.paymentMethod tx.record, d))]
      exact ih _ _ (pushGroup_nonempty gs tx.paymentMethod tx.record h)

/-- C2.  `filterTransactions` drops exactly the transactions whose key is in
the exclusion set (the duplicate count is their number, each dropped
transaction counting once); each group holds exactly the records of its
surviving transactions in source order, siblings being tested
independently; group names are unique; and no empty group is emitted. -/
theorem filterTransactions_spec (transactions : List PayPayTransaction)
    (exclusionSet : List String) :
    ((filterTransactions transactions exclusionSet).2 =
      (transactions.filter (fun t => decide (t.key ∈ exclusionSet))).length)
    ∧ (∀ m, alistGet (filterTransactions transactions exclusionSet).1 m =
        if survivors exclusionSet m transactions = [] then none
        else some ((survivors exclusionSet m transactions).map
          PayPayTransaction.record))
    ∧ ((filterTransactions transactions exclusionSet).1.map Prod.fst).Nodup
    ∧ (∀ p ∈ (filterTransactions transactions exclusionSet).1, p.2 ≠ []) := by
  refine ⟨by simpa using filterAux_dups exclusionSet transactions [] 0, ?_,
    filterAux_nodup exclusionSet transactions [] 0 (by simp),
    filterAux_nonempty exclusionSet transactions [] 0 (by simp)⟩
  intro m
  have h := filterAux_lookup exclusionSet transactions [] 0 m
  simpa [alistGet] using h

/-! ### C5: chunking -/

theorem sliceChunksAux_fuel {α : Type} {fuel : Nat} {l : List α}
    (h : l.length ≤ fuel) : sliceChunksAux fuel l = sliceChunksAux l.length l := by
  induction fuel using Nat.strong_induction_on generalizing l with
  | _ fuel ih =>
    match fuel, l with
    | 0, [] => rfl
    | 0, a :: l => simp at h
    | fuel + 1, [] => rfl
    | fuel + 1, a :: l =>
      simp only [List.length_cons] at h
      simp only [List.length_cons, sliceChunksAux]
      congr 1
      have hlen : ((a :: l).drop 100).length = l.length + 1 - 100 := by simp
      rw [ih fuel (by omega) (by omega), ih l.length (by omega) (by omega)]

theorem sliceChunks_cons {α : Type} (a : α) (l : List α) :
    sliceChunks (a :: l) =
      ((a :: l).take 100) :: sliceChunks ((a :: l).drop 100) := by
  show sliceChunksAux (l.length + 1) (a :: l) = _
  simp only [sliceChunksAux]
  congr 1
  have hlen : ((a :: l).drop 100).length = l.length + 1 - 100 := by simp
  exact sliceChunksAux_fuel (by rw [hlen]; omega)

theorem sliceChunks_flatten {α : Type} (l : List α) : (sliceChunks l).flatten = l := by
  suffices H : ∀ (n : Nat) (l : List α), l.length = n → (sliceChunks l).flatten = l from
    H l.length l rfl
  intro n
  induction n using Nat.strong_induction_on with
  | _ n ih =>
    intro l hn
    match l with
    | [] => rfl
    | a :: l =>
      rw [sliceChunks_cons]
      have hlen : ((a :: l).drop 100).length = l.length + 1 - 100 := by simp
      rw [List.flatten_cons, ih ((a :: l).drop 100).length
        (by simp only [List.length_cons] at hn; omega) ((a :: l).drop 100) rfl]
      exact List.take_append_drop 100 (a :: l)

theorem sliceChunks_eq_nil_iff {α : Type} (l : List α) :
    sliceChunks l = [] ↔ l = [] := by
  match l with
  | [] => simp [sliceChunks, sliceChunksAux]
  | a :: l => rw [sliceChunks_cons]; simp

theorem sliceChunks_length {α : Type} (l : List α) :
    (sliceChunks l).length = (l.length + 99) / 100 := by
  suffices H : ∀ (n : Nat) (l : List α), l.length = n →
      (sliceChunks l).length = (l.length + 99) / 100 from H l.length l rfl
  intro n
  induction n using Nat.strong_induction_on with
  | _ n ih =>
    intro l hn
    match l with
    | [] => simp [sliceChunks, sliceChunksAux]
    | a :: l =>
      rw [sliceChunks_cons]
      have hlen : ((a :: l).drop 100).length = l.length + 1 - 100 := by simp
      rw [List.length_cons,
        ih ((a :: l).drop 100).length
          (by simp only [List.length_cons] at hn; omega)
          ((a :: l).drop 100) rfl, hlen]
      simp only [List.length_cons]
      omega

theorem sliceChunks_dropLast {α : Type} (l : List α) :
    ∀ c ∈ (sliceChunks l).dropLast, c.length = 100 := by
  suffices H : ∀ (n : Nat) (l : List α), l.length = n →
      ∀ c ∈ (sliceChunks l).dropLast, c.length = 100 from H l.length l rfl
  intro n
  induction n using Nat.strong_induction_on with
  | _ n ih =>
    intro l hn
    match l with
    | [] => simp [sliceChunks, sliceChunksAux]
    | a :: l =>
      rw [sliceChunks_cons]
      have hdl : ((a :: l).drop 100).length = l.length + 1 - 100 := by simp
      by_cases hd : (a :: l).drop 100 = []
      · rw [hd]
        simp [sliceChunks, sliceChunksAux]
      · have hne : sliceChunks ((a :: l).drop 100) ≠ [] := by
          rw [ne_eq, sliceChunks_eq_nil_iff]
          exact hd
        obtain ⟨b, tl, hbt⟩ := List.exists_cons_of_ne_nil hne
        rw [hbt, List.dropLast_cons₂]
        intro c hc
        rcases List.mem_cons.mp hc with rfl | hc2
        · have hlong : 100 < l.length + 1 := by
            rcases Nat.lt_or_ge 100 (l.length + 1) with hg | hg
            · exact hg
            · exact absurd (List.length_eq_zero.mp (by omega)) hd
          simp only [List.length_take, List.length_cons]
          omega
        · exact ih ((a :: l).drop 100).length
            (by simp only [List.length_cons] at hn; omega)
            ((a :: l).drop 100) rfl c (by rw [hbt]; exact hc2)

theorem sliceChunks_getLast {α : Type} (l : List α) (h : l ≠ []) :
    ∃ last, (sliceChunks l).getLast? = some last ∧
      last.length = if l.length % 100 = 0 then 100 else l.length % 100 := by
  suffices H : ∀ (n : Nat) (l : List α), l.length = n → l ≠ [] →
      ∃ last, (sliceChunks l).getLast? = some last ∧
        last.length = if l.length % 100 = 0 then 100 else l.length % 100 from
    H l.length l rfl h
  clear h
  intro n
  induction n using Nat.strong_induction_on with
  | _ n ih =>
    intro l hn h
    match l with
    | [] => exact absurd rfl h
    | a :: l =>
      rw [sliceChunks_cons]
      have hdl : ((a :: l).drop 100).length = l.length + 1 - 100 := by simp
      by_cases hd : (a :: l).drop 100 = []
      · rw [hd]
        refine ⟨(a :: l).take 100, rfl, ?_⟩
        have hle : l.length + 1 ≤ 100 := by
          rw [hd] at hdl
          simp at hdl
          omega
        have h1 : ((a :: l).take 100).length = l.length + 1 := by
          simp only [List.length_take, List.length_cons]
          omega
        rw [h1]
        simp only [List.length_cons]
        rcases Nat.lt_or_ge (l.length + 1) 100 with hlt | hge
        · rw [if_neg (by omega), Nat.mod_eq_of_lt hlt]
        · have h100 : l.length + 1 = 100 := by omega
          rw [h100]
          simp
      · have hne : sliceChunks ((a :: l).drop 100) ≠ [] := by
          rw [ne_eq, sliceChunks_eq_nil_iff]
          exact hd
        obtain ⟨b, tl, hbt⟩ := List.exists_cons_of_ne_nil hne
        rw [hbt, List.getLast?_cons_cons]
        have hlong : 100 < l.length + 1 := by
          rcases Nat.lt_or_ge 100 (l.length + 1) with hg | hg
          · exact hg
          · exact absurd (List.length_eq_zero.mp (by omega)) hd
        obtain ⟨last, hl, hlen⟩ := ih ((a :: l).drop 100).length
          (by simp only [List.length_cons] at hn; omega)
          ((a :: l).drop 100) rfl hd
        refine ⟨last, by rw [← hbt]; exact hl, ?_⟩
        rw [hlen, hdl]
        simp only [List.length_cons]
        have hmod : (l.length + 1 - 100) % 100 = (l.length + 1) % 100 := by omega
        rw [hmod]

theorem alistGet_createChunks (tz : Int) (G : List (String × List Rec))
    (H : List String) (name : String) (rs : List Rec)
    (h1 : alistGet G name = some rs) (h2 : rs ≠ []) :
    alistGet (createChunksFromGroupedRecords tz G H) name =
      some ((sliceChunks rs).map (chunkFromRecords tz H)) := by
  induction G with
  | nil => exact absurd h1 (by simp [alistGet])
  | cons p G ih =>
    obtain ⟨k, l⟩ := p
    by_cases hk : k = name
    · subst hk
      have hl : l = rs := by simpa [alistGet] using h1
      subst hl
      simp [createChunksFromGroupedRecords, List.filterMap_cons, alistGet, h2]
    · have h1x : alistGet G name = some rs := by simpa [alistGet, hk] using h1
      have hres := ih h1x
      by_cases hl : l = []
      · simpa [createChunksFromGroupedRecords, List.filterMap_cons, hl,
          alistGet] using hres
      · simpa [createChunksFromGroupedRecords, List.filterMap_cons, hl,
          alistGet, hk] using hres

/-- C5.  Every nonempty group of `N` rows is emitted as `ceil(N/100)` chunks
in order; every chunk but the last holds exactly 100 rows; the last holds
`N mod 100` rows (100 when `N` is a multiple of 100); the chunk windows
concatenate back to the group's row list; and each chunk's `count` is its
window's length. -/
theorem createChunksFromGroupedRecords_law (tz : Int)
    (G : List (String × List Rec)) (H : List String) (name : String)
    (rs : List Rec) (h1 : alistGet G name = some rs) (h2 : rs ≠ []) :
    alistGet (createChunksFromGroupedRecords tz G H) name =
      some ((sliceChunks rs).map (chunkFromRecords tz H))
    ∧ (sliceChunks rs).length = (rs.length + 99) / 100
    ∧ (∀ c ∈ (sliceChunks rs).dropLast, c.length = 100)
    ∧ (∃ last, (sliceChunks rs).getLast? = some last ∧
        last.length = if rs.length % 100 = 0 then 100 else rs.length % 100)
    ∧ (sliceChunks rs).flatten = rs
    ∧ (∀ w : List Rec, (chunkFromRecords tz H w).count = w.length) :=
  ⟨alistGet_createChunks tz G H name rs h1 h2, sliceChunks_length rs,
    sliceChunks_dropLast rs, sliceChunks_getLast rs h2, sliceChunks_flatten rs,
    fun w => rfl⟩

/-- Witness for C5: a group of 105 rows yields two chunks of 100 and 5
rows. -/
theorem createChunksFromGroupedRecords_law_witness :
    (sliceChunks (List.replicate 105 ([] : Rec))).length = 2
    ∧ (∀ c ∈ (sliceChunks (List.replicate 105 ([] : Rec))).dropLast,
        c.length = 100)
    ∧ (∃ last, (sliceChunks (List.replicate 105 ([] : Rec))).getLast? = some last ∧
        last.length = 5) := by
  have h := createChunksFromGroupedRecords_law 540
    [("A", List.replicate 105 ([] : Rec))] ["h"] "A"
    (List.replicate 105 ([] : Rec)) rfl (by simp)
  refine ⟨by simpa using h.2.1, h.2.2.1, ?_⟩
  obtain ⟨last, hl, hlen⟩ := h.2.2.2.1
  exact ⟨last, hl, by simpa using hlen⟩

/-! ### C1, C3, C10: transaction extraction -/

theorem extractFold_transactions (tz : Int) (records : List Rec)
    (acc : List PayPayTransaction) (mn mx : Option Int) :
    (records.foldl (extractFold tz) (acc, mn, mx)).1 =
      acc ++ records.flatMap rowTransactions := by
  induction records generalizing acc mn mx with
  | nil => simp
  | cons r rest ih =>
    have heta : extractFold tz (acc, mn, mx) r =
        ((extractFold tz (acc, mn, mx) r).1,
          (extractFold tz (acc, mn, mx) r).2.1,
          (extractFold tz (acc, mn, mx) r).2.2) := rfl
    rw [List.foldl_cons, heta, ih]
    show (acc ++ rowTransactions r) ++ rest.flatMap rowTransactions = _
    simp [List.flatMap_cons]

theorem length_flatMap_ite {α β : Type} (P : α → Prop) [DecidablePred P]
    (g : α → β) (ms : List α) :
    (ms.flatMap (fun p => if P p then [g p] else [])).length =
      (ms.filter (fun p => decide (P p))).length := by
  induction ms with
  | nil => rfl
  | cons x xs ih => by_cases h : P x <;> simp [h, ih]

/-- C1 fails as stated: the payment-method value " (12円)" matches one
combined-payment token (group 1 is the single space, group 2 is "12"), yet
the row yields zero transactions because the trimmed name is empty. -/
theorem rowTransactions_count_counterexample :
    (scanMatches (" (12円)".data)).length = 1
    ∧ recGet [(colMethod, " (12円)"), (colOut, "190")] colMethod =
        some " (12円)"
    ∧ rowTransactions [(colMethod, " (12円)"), (colOut, "190")] = [] := by
  refine ⟨by decide, by decide, by decide⟩

/-- C1 (amended).  A row yields: zero transactions when the payment-method
column is absent or empty; when at least one combined-payment token matches,
one transaction per matched token whose trimmed name is nonempty and whose
amount is nonempty after removing commas; otherwise one transaction when the
direction-appropriate amount column is present and nonempty after removing
commas, and zero otherwise.  The whole file is processed: the extractor's
transaction list is the concatenation of every row's transactions. -/
theorem extractTransactions_row_count (tz : Int) (records : List Rec)
    (record : Rec) :
    ((extractTransactionsFromPayPayCsv tz records).transactions =
      records.flatMap rowTransactions)
    ∧ ((rowTransactions record).length =
        match recGet record colMethod with
        | none => 0
        | some m =>
          if m = "" then 0
          else if (scanMatches m.data).isEmpty then
            (match (if isExpense record then recGet record colOut
                else recGet record colIn) with
              | none => 0
              | some av => if String.mk (stripCommas av.data) = "" then 0 else 1)
          else ((scanMatches m.data).filter (fun p =>
              decide (String.mk (jsTrim p.1) ≠ "" ∧
                String.mk (stripCommas p.2) ≠ ""))).length) := by
  constructor
  · show (records.foldl (extractFold tz) ([], none, none)).1 = _
    simpa using extractFold_transactions tz records [] none none
  · rcases hm : recGet record colMethod with _ | m
    · simp [rowTransactions, hm]
    · by_cases hme : m = ""
      · simp [rowTransactions, hm, hme]
      · by_cases hsm : (scanMatches m.data).isEmpty
        · rcases hav : (if isExpense record then recGet record colOut
              else recGet record colIn) with _ | av
          · simp [rowTransactions, hm, hme, hsm, hav]
          · by_cases ha : String.mk (stripCommas av.data) = "" <;>
              simp [rowTransactions, hm, hme, hsm, hav, ha]
        · simp only [rowTransactions, hm, hme, hsm, if_false, if_neg hme,
            Bool.false_eq_true]
          exact length_flatMap_ite _ _ _

/-- C3 fails as stated: on an income row (outgoing column "-") with a
combined-payment method field, the code still overwrites the outgoing
column with each entry's amount and leaves the incoming column at its
original value, while the claim requires the incoming column to receive the
amount. -/
theorem splitRecord_direction_counterexample :
    isExpense [(colDate, "2025/09/29 14:54:12"), (colOut, "-"), (colIn, "410"),
        (colPayee, "X"), (colMethod, "A (93円), B (317円)")] = false
    ∧ (rowTransactions [(colDate, "2025/09/29 14:54:12"), (colOut, "-"),
        (colIn, "410"), (colPayee, "X"),
        (colMethod, "A (93円), B (317円)")]).map
          (fun t => recGet t.record colIn) = [some "410", some "410"]
    ∧ (rowTransactions [(colDate, "2025/09/29 14:54:12"), (colOut, "-"),
        (colIn, "410"), (colPayee, "X"),
        (colMethod, "A (93円), B (317円)")]).map
          (fun t => recGet t.record colOut) = [some "93", some "317"] := by
  refine ⟨by decide, by decide, by decide⟩

/-- C3 (amended).  For a row whose method field matches combined-payment
tokens, each kept entry's transaction row is the original row with the
payment-method column set to the entry's trimmed name and the
outgoing-amount column — regardless of the row's direction — set to the
entry's amount with commas removed; every other column is unchanged. -/
theorem rowTransactions_combined_frame (record : Rec) (m : String)
    (hm : recGet record colMethod = some m) (hne : m ≠ "")
    (hms : ¬ (scanMatches m.data).isEmpty) :
    (rowTransactions record = (scanMatches m.data).flatMap (fun p =>
        if String.mk (jsTrim p.1) ≠ "" ∧ String.mk (stripCommas p.2) ≠ "" then
          [createTransaction (isExpense record) (String.mk (jsTrim p.1))
            (String.mk (stripCommas p.2))
            (splitRecord record (String.mk (jsTrim p.1))
              (String.mk (stripCommas p.2)))]
        else []))
    ∧ (∀ name amount c, c ≠ colMethod → c ≠ colOut →
        recGet (splitRecord record name amount) c = recGet record c)
    ∧ (∀ name amount,
        recGet (splitRecord record name amount) colMethod = some name)
    ∧ (∀ name amount,
        recGet (splitRecord record name amount) colOut = some amount) := by
  refine ⟨?_, ?_, ?_, ?_⟩
  · simp only [rowTransactions, hm]
    rw [if_neg hne, if_neg (by simpa using hms)]
  · intro name amount c hc1 hc2
    rw [splitRecord, recGet_recSet_ne _ _ _ _ hc2, recGet_recSet_ne _ _ _ _ hc1]
  · intro name amount
    rw [splitRecord, recGet_recSet_ne _ _ _ _ (by decide), recGet_recSet_self]
  · intro name amount
    rw [splitRecord, recGet_recSet_self]

/-- Witness for C3 (amended) on an expense row with one combined token. -/
theorem rowTransactions_combined_frame_witness :
    recGet (splitRecord [(colOut, "410"), (colMethod, "A (93円)")] "A" "93")
        colOut = some "93"
    ∧ recGet (splitRecord [(colOut, "410"), (colMethod, "A (93円)")] "A" "93")
        colMethod = some "A"
    ∧ recGet (splitRecord [(colOut, "410"), (colMethod, "A (93円)")] "A" "93")
        colIn = recGet [(colOut, "410"), (colMethod, "A (93円)")] colIn := by
  have h := rowTransactions_combined_frame
    [(colOut, "410"), (colMethod, "A (93円)")] "A (93円)" (by decide)
    (by decide) (by decide)
  exact ⟨h.2.2.2 "A" "93", h.2.2.1 "A" "93",
    h.2.1 "A" "93" colIn (by decide) (by decide)⟩

/-- C10.  The direction of a row is decided solely by whether the
outgoing-amount column differs from the literal "-": the incoming column is
never consulted, an absent outgoing column classifies the row as an expense,
and every transaction such a row produces carries a "-"-prefixed amount in
its dedup key. -/
theorem isExpense_outgoing_only (record : Rec) :
    (isExpense record = true ↔ recGet record colOut ≠ some "-")
    ∧ (∀ v, isExpense (recSet record colIn v) = isExpense record)
    ∧ (recGet record colOut = none →
        isExpense record = true
        ∧ ∀ t ∈ rowTransactions record, ∃ name amt rec2,
            t = createTransaction true name amt rec2
            ∧ t.key = optStr ((recGet rec2 colDate).map jsSplitFirst) ++ "_" ++
                ("-" ++ amt) ++ "_" ++ name ++ "_" ++
                optStr (recGet rec2 colPayee)) := by
  refine ⟨by simp [isExpense], ?_, ?_⟩
  · intro v
    simp [isExpense, recGet_recSet_ne record colIn colOut v (by decide)]
  · intro h
    have hexp : isExpense record = true := by simp [isExpense, h]
    refine ⟨hexp, ?_⟩
    intro t ht
    rw [rowTransactions] at ht
    rcases hmv : recGet record colMethod with _ | m
    · simp [hmv] at ht
    · rw [hmv] at ht
      dsimp only at ht
      by_cases hme : m = ""
      · simp [hme] at ht
      · rw [if_neg hme] at ht
        by_cases hsm : (scanMatches m.data).isEmpty
        · rw [if_pos hsm, hexp] at ht
          simp [h] at ht
        · rw [if_neg hsm] at ht
          obtain ⟨p, hp, htp⟩ := List.mem_flatMap.mp ht
          by_cases hcond : String.mk (jsTrim p.1) ≠ "" ∧
              String.mk (stripCommas p.2) ≠ ""
          · rw [if_pos hcond] at htp
            have ht2 := List.mem_singleton.mp htp
            subst ht2
            refine ⟨String.mk (jsTrim p.1), String.mk (stripCommas p.2),
              splitRecord record (String.mk (jsTrim p.1))
                (String.mk (stripCommas p.2)), ?_, ?_⟩
            · rw [hexp]
            · rw [hexp]
              rfl
          · rw [if_neg hcond] at htp
            exact absurd htp (by simp)

/-- Witness for C10: a row with no outgoing column is an expense and its
combined-token transaction's key amount is "-"-prefixed. -/
theorem isExpense_outgoing_only_witness :
    isExpense [(colMethod, "A (93円)")] = true
    ∧ ∀ t ∈ rowTransactions [(colMethod, "A (93円)")], ∃ name amt rec2,
        t = createTransaction true name amt rec2
        ∧ t.key = optStr ((recGet rec2 colDate).map jsSplitFirst) ++ "_" ++
            ("-" ++ amt) ++ "_" ++ name ++ "_" ++
            optStr (recGet rec2 colPayee) :=
  (isExpense_outgoing_only [(colMethod, "A (93円)")]).2.2 (by decide)

/-! ### C7: CSV round-trip, character-level lemmas -/

theorem takeWhile_append_of_all {p : Char → Bool} {l1 l2 : List Char}
    (h : l1.all p) : (l1 ++ l2).takeWhile p = l1 ++ l2.takeWhile p := by
  induction l1 with
  | nil => simp
  | cons c cs ih =>
    simp only [List.all_cons, Bool.and_eq_true] at h
    simp [List.takeWhile_cons, h.1, ih h.2]

theorem dropWhile_append_of_all {p : Char → Bool} {l1 l2 : List Char}
    (h : l1.all p) : (l1 ++ l2).dropWhile p = l2.dropWhile p := by
  induction l1 with
  | nil => simp
  | cons c cs ih =>
    simp only [List.all_cons, Bool.and_eq_true] at h
    simp [List.dropWhile_cons, h.1, ih h.2]

theorem readQuoted_cons_ne (c : Char) (rest : List Char) (hc : ¬ c = '"') :
    readQuoted (c :: rest) = (readQuoted rest).map (fun p => (c :: p.1, p.2)) := by
  rw [readQuoted.eq_def]
  dsimp only
  rw [if_neg hc]

theorem readQuoted_escape (f r : List Char)
    (hr : ∀ c, r.head? = some c → c ≠ '"') :
    readQuoted (escapeQuotes f ++ '"' :: r) = some (f, r) := by
  induction f with
  | nil =>
    rcases r with _ | ⟨c2, r2⟩
    · rfl
    · have hc2 : c2 ≠ '"' := hr c2 rfl
      simp only [escapeQuotes, List.nil_append]
      simp [readQuoted, hc2]
  | cons a f ih =>
    by_cases ha : a = '"'
    · subst ha
      simp only [escapeQuotes, if_pos rfl, List.cons_append]
      simp [readQuoted, ih]
    · simp only [escapeQuotes, if_neg ha, List.cons_append]
      rw [readQuoted_cons_ne a _ ha, ih]
      rfl

theorem needsQuoting_false_break {f : List Char} (h : needsQuoting f = false) :
    f.all (fun c => !isFieldBreak c) = true := by
  simp only [needsQuoting, List.any_eq_false] at h
  simp only [List.all_eq_true]
  intro c hc
  have h2 := h c hc
  simp only [Bool.or_eq_true, decide_eq_true_eq, not_or] at h2
  obtain ⟨⟨h3, h4⟩, h5⟩ := h2
  simp [isFieldBreak, h3, h5]

theorem needsQuoting_false_no_quote {f : List Char}
    (h : needsQuoting f = false) : ∀ c ∈ f, c ≠ '"' := by
  simp only [needsQuoting, List.any_eq_false] at h
  intro c hc
  have h2 := h c hc
  simp only [Bool.or_eq_true, decide_eq_true_eq, not_or] at h2
  obtain ⟨⟨h3, h4⟩, h5⟩ := h2
  exact h4

theorem readField_quote_cons (rest : List Char) :
    readField ('"' :: rest) =
      match readQuoted rest with
      | none => none
      | some (f, r) =>
        match r with
        | [] => some (f, false, [])
        | ',' :: r2 => some (f, true, r2)
        | '\n' :: r2 => some (f, false, r2)
        | _ => none := rfl

theorem readField_unquoted {f : List Char} (sep : Char) (r : List Char)
    (hq : needsQuoting f = false) (hsep : isFieldBreak sep = true) :
    readField (f ++ sep :: r) = some (f, decide (sep = ','), r) := by
  have hall := needsQuoting_false_break hq
  have hsep2 : sep = ',' ∨ sep = '\n' := by
    simpa [isFieldBreak] using hsep
  have htake : (f ++ sep :: r).takeWhile (fun c => !isFieldBreak c) = f := by
    rw [takeWhile_append_of_all hall]
    simp [List.takeWhile_cons, hsep]
  have hdrop : (f ++ sep :: r).dropWhile (fun c => !isFieldBreak c) = sep :: r := by
    rw [dropWhile_append_of_all hall]
    simp [List.dropWhile_cons, hsep]
  rcases f with _ | ⟨a, f2⟩
  · simp only [List.nil_append] at htake hdrop ⊢
    have hc : sep ≠ '"' := by
      rcases hsep2 with h | h <;> subst h <;> decide
    simp only [readField, if_neg hc, htake, hdrop]
    rcases hsep2 with h | h <;> subst h <;> simp
  · have ha : a ≠ '"' := needsQuoting_false_no_quote hq a (by simp)
    rw [List.cons_append] at htake hdrop ⊢
    simp only [readField, if_neg ha, htake, hdrop]
    rcases hsep2 with h | h <;> subst h <;> simp

theorem readField_encode (f : List Char) (sep : Char) (r : List Char)
    (hsep : isFieldBreak sep = true) :
    readField (encodeField f ++ sep :: r) = some (f, decide (sep = ','), r) := by
  have hsep2 : sep = ',' ∨ sep = '\n' := by
    simpa [isFieldBreak] using hsep
  by_cases hq : needsQuoting f
  · have hsq : sep ≠ '"' := by
      rcases hsep2 with h | h <;> subst h <;> decide
    have hstep : encodeField f ++ sep :: r =
        '"' :: (escapeQuotes f ++ '"' :: sep :: r) := by
      simp [encodeField, hq]
    have hq2 := readQuoted_escape f (sep :: r)
      (by intro c hc; simp at hc; subst hc; exact hsq)
    rw [hstep, readField_quote_cons, hq2]
    rcases hsep2 with h | h <;> subst h <;> simp
  · simp only [encodeField, if_neg hq]
    exact readField_unquoted sep r (by simpa using hq) hsep

theorem readRecordAux_encode (fs : List (List Char)) (r : List Char)
    (fuel : Nat) (hfs : fs ≠ []) (hfuel : fs.length ≤ fuel) :
    readRecordAux fuel (encodeRow fs ++ '\n' :: r) = some (fs, r) := by
  induction fs generalizing fuel r with
  | nil => exact absurd rfl hfs
  | cons f fs ih =>
    rcases fuel with _ | fuel
    · simp at hfuel
    · rcases fs with _ | ⟨f2, fs2⟩
      · have hre := readField_encode f '\n' r (by decide)
        simp only [encodeRow, readRecordAux, hre]
        simp
      · have h1 : encodeRow (f :: f2 :: fs2) ++ '\n' :: r =
            encodeField f ++ ',' :: (encodeRow (f2 :: fs2) ++ '\n' :: r) := by
          simp [encodeRow]
        have hre : readField (encodeRow (f :: f2 :: fs2) ++ '\n' :: r) =
            some (f, true, encodeRow (f2 :: fs2) ++ '\n' :: r) := by
          rw [h1, readField_encode f ',' _ (by decide)]
          simp
        simp only [readRecordAux, hre]
        rw [ih r fuel (by simp) (by simp at hfuel ⊢; omega)]

theorem encodeRow_length (fs : List (List Char)) :
    fs.length ≤ (encodeRow fs).length + 1 := by
  induction fs with
  | nil => simp
  | cons f fs ih =>
    rcases fs with _ | ⟨f2, fs2⟩
    · simp
    · simp only [encodeRow, List.length_append, List.length_cons]
      simp only [List.length_cons] at ih ⊢
      omega

theorem readCsvAux_encode (rows : List (List (List Char))) :
    ∀ (fuel : Nat), (∀ row ∈ rows, row ≠ []) → rows.length ≤ fuel →
      readCsvAux fuel (encodeCsv rows) = some rows := by
  induction rows with
  | nil =>
    intro fuel h1 h2
    cases fuel <;> rfl
  | cons row rest ih =>
    intro fuel hrows hfuel
    have henc : encodeCsv (row :: rest) =
        encodeRow row ++ '\n' :: encodeCsv rest := by
      simp [encodeCsv]
    rcases fuel with _ | fuel
    · simp at hfuel
    · rw [henc]
      rcases hE : encodeRow row ++ '\n' :: encodeCsv rest with _ | ⟨c, tail⟩
      · exact absurd hE (by simp)
      · have hlen2 : row.length ≤
            (encodeRow row ++ '\n' :: encodeCsv rest).length + 1 := by
          have h1 := encodeRow_length row
          simp only [List.length_append, List.length_cons]
          omega
        have hrec : readRecordAux ((c :: tail).length + 1) (c :: tail) =
            some (row, encodeCsv rest) := by
          rw [← hE]
          exact readRecordAux_encode row (encodeCsv rest) _
            (hrows row (by simp)) hlen2
        simp only [readCsvAux, hrec]
        rw [ih fuel (fun q hq => hrows q (by simp [hq])) (by simpa using hfuel)]

theorem encodeCsv_length (rows : List (List (List Char))) :
    rows.length ≤ (encodeCsv rows).length := by
  induction rows with
  | nil => simp
  | cons row rest ih =>
    simp only [encodeCsv, List.foldr_cons, List.length_append,
      List.length_cons] at ih ⊢
    omega

theorem readCsv_encode (rows : List (List (List Char)))
    (hrows : ∀ row ∈ rows, row ≠ []) :
    readCsv (encodeCsv rows) = some rows :=
  readCsvAux_encode rows (encodeCsv rows).length hrows (encodeCsv_length rows)

/-! ### C7: string-level round-trip -/

theorem data_mk (l : List Char) : (String.mk l).data = l := rfl

theorem mk_data (s : String) : String.mk s.data = s := rfl

theorem zip_map_self {α β : Type} (l : List α) (f : α → β) :
    l.zip (l.map f) = l.map (fun a => (a, f a)) := by
  induction l with
  | nil => rfl
  | cons a l ih => simp [ih]

theorem recGet_map_pair (ks : List String) (f : String → String) (h : String)
    (hmem : h ∈ ks) :
    recGet (ks.map (fun k => (k, f k))) h = some (f h) := by
  induction ks with
  | nil => simp at hmem
  | cons k ks ih =>
    by_cases hk : k = h
    · subst hk
      simp [recGet]
    · rcases List.mem_cons.mp hmem with rfl | h2
      · exact absurd rfl hk
      · simp only [List.map_cons, recGet, if_neg hk]
        exact ih h2

theorem parse_stringify (headers : List String) (records : List Rec)
    (hh : headers ≠ []) :
    parseCsvWithColumns (stringifyRecords headers records) =
      some (records.map (fun r =>
        headers.map (fun h => (h, (recGet r h).getD "")))) := by
  have hrows : ∀ row ∈ (headers.map String.data) ::
      records.map (fun r => headers.map (fun h => ((recGet r h).getD "").data)),
      row ≠ [] := by
    intro row hrow
    rcases List.mem_cons.mp hrow with rfl | hr2
    · simpa using hh
    · obtain ⟨r, hr, rfl⟩ := List.mem_map.mp hr2
      simpa using hh
  have hread := readCsv_encode _ hrows
  unfold parseCsvWithColumns stringifyRecords
  rw [data_mk, hread]
  dsimp only
  have hlenall : (records.map (fun r =>
      headers.map (fun h => ((recGet r h).getD "").data))).all
      (fun row => row.length = (headers.map String.data).length) = true := by
    simp [List.all_eq_true]
  rw [if_pos hlenall]
  congr 1
  rw [List.map_map]
  apply List.map_congr_left
  intro r hr
  simp only [Function.comp_apply]
  have h1 : (fun h => String.mk (String.data h)) = (fun h : String => h) := by
    funext h
    exact mk_data h
  calc ((headers.map String.data).map String.mk).zip
        ((headers.map (fun h => ((recGet r h).getD "").data)).map String.mk)
      = headers.zip (headers.map (fun h => (recGet r h).getD "")) := by
        rw [List.map_map, List.map_map]
        congr 1
        show headers.map (fun h => String.mk (String.data h)) = headers
        rw [h1, List.map_id']
    _ = headers.map (fun h => (h, (recGet r h).getD "")) := zip_map_self _ _

theorem mem_of_mem_sliceChunks {α : Type} {l w : List α} {r : α}
    (hw : w ∈ sliceChunks l) (hr : r ∈ w) : r ∈ l :=
  (sliceChunks_flatten l) ▸ List.mem_flatten.mpr ⟨w, hw, hr⟩

theorem some_getD_of_isSome {o : Option String} (ho : o.isSome = true) :
    some (o.getD "") = o := by
  cases o
  · simp at ho
  · rfl

/-- C7.  Every chunk emitted by `createChunksFromGroupedRecords` arises from
a window of rows, and reparsing its serialized CSV text with the same header
list yields exactly that window: the same number of rows, with every header
column of every reparsed row equal to the original field value. -/
theorem chunk_roundtrip (tz : Int) (G : List (String × List Rec))
    (H : List String) (p : String × List ProcessedCsvChunk)
    (chunk : ProcessedCsvChunk)
    (hp : p ∈ createChunksFromGroupedRecords tz G H) (hc : chunk ∈ p.2)
    (hH : H ≠ [])
    (hall : ∀ q ∈ G, ∀ r ∈ q.2, ∀ h ∈ H, (recGet r h).isSome = true) :
    ∃ w parsed, chunk = chunkFromRecords tz H w
      ∧ parseCsvWithColumns chunk.data = some parsed
      ∧ parsed.length = chunk.count
      ∧ List.Forall₂ (fun pr orig => ∀ h ∈ H, recGet pr h = recGet orig h)
          parsed w := by
  obtain ⟨q, hq, hqp⟩ := List.mem_filterMap.mp hp
  by_cases hqe : q.2.isEmpty
  · rw [if_pos hqe] at hqp
    exact absurd hqp (by simp)
  · rw [if_neg hqe] at hqp
    have hqp2 : p = (q.1, (sliceChunks q.2).map (chunkFromRecords tz H)) := by
      simpa [eq_comm] using hqp
    rw [hqp2] at hc
    obtain ⟨w, hw, hcw⟩ := List.mem_map.mp hc
    refine ⟨w, w.map (fun r => H.map (fun h => (h, (recGet r h).getD ""))),
      hcw.symm, ?_, ?_, ?_⟩
    · rw [← hcw]
      show parseCsvWithColumns (stringifyRecords H w) = _
      exact parse_stringify H w hH
    · rw [← hcw]
      simp [chunkFromRecords]
    · rw [List.forall₂_map_left_iff]
      rw [List.forall₂_same]
      intro r hrw h hmem
      have hsome := hall q hq r (mem_of_mem_sliceChunks hw hrw) h hmem
      rw [recGet_map_pair H _ h hmem]
      exact some_getD_of_isSome hsome

/-- Witness for C7: a two-column chunk containing a comma survives the
round-trip. -/
theorem chunk_roundtrip_witness :
    ∃ w parsed,
      chunkFromRecords 540 ["h1", "h2"] [[("h1", "x"), ("h2", "y,z")]] =
        chunkFromRecords 540 ["h1", "h2"] w
      ∧ parseCsvWithColumns (chunkFromRecords 540 ["h1", "h2"]
          [[("h1", "x"), ("h2", "y,z")]]).data = some parsed
      ∧ parsed.length = (chunkFromRecords 540 ["h1", "h2"]
          [[("h1", "x"), ("h2", "y,z")]]).count
      ∧ List.Forall₂ (fun pr orig => ∀ h ∈ ["h1", "h2"],
          recGet pr h = recGet orig h) parsed w :=
  chunk_roundtrip 540 [("A", [[("h1", "x"), ("h2", "y,z")]])] ["h1", "h2"]
    ("A", [chunkFromRecords 540 ["h1", "h2"] [[("h1", "x"), ("h2", "y,z")]]])
    (chunkFromRecords 540 ["h1", "h2"] [[("h1", "x"), ("h2", "y,z")]])
    (by decide) (by decide) (by decide) (by decide)

/-! ### C6: parseDate and the two spec shapes -/

/-- The spec's first recognized shape `YYYY/MM/DD HH:mm:ss`, with its numeric
components; `none` when the string is not of that shape. -/
def specShapeDateTime (s : String) :
    Option (Nat × Nat × Nat × Nat × Nat × Nat) :=
  match s.data with
  | [y1, y2, y3, y4, '/', m1, m2, '/', d1, d2, ' ',
      h1, h2, ':', i1, i2, ':', s1, s2] =>
    if [y1, y2, y3, y4, m1, m2, d1, d2, h1, h2, i1, i2, s1, s2].all isDigitChar
    then
      some (digitsToNat [y1, y2, y3, y4], digitsToNat [m1, m2],
        digitsToNat [d1, d2], digitsToNat [h1, h2], digitsToNat [i1, i2],
        digitsToNat [s1, s2])
    else none
  | _ => none

/-- The spec's second recognized shape `YYYY/MM/DD`. -/
def specShapeDateOnly (s : String) : Option (Nat × Nat × Nat) :=
  match s.data with
  | [y1, y2, y3, y4, '/', m1, m2, '/', d1, d2] =>
    if [y1, y2, y3, y4, m1, m2, d1, d2].all isDigitChar then
      some (digitsToNat [y1, y2, y3, y4], digitsToNat [m1, m2],
        digitsToNat [d1, d2])
    else none
  | _ => none

/-- A valid proleptic-Gregorian calendar date. -/
def validYMD (y m d : Nat) : Prop :=
  1 ≤ m ∧ m ≤ 12 ∧ 1 ≤ d ∧ d ≤ daysInMonth y m

/-- A valid time of day (24:00:00 denotes end of day and is accepted). -/
def validHMS (hh mi ss : Nat) : Prop :=
  (hh ≤ 23 ∨ (hh = 24 ∧ mi = 0 ∧ ss = 0)) ∧ mi ≤ 59 ∧ ss ≤ 59

instance (y m d : Nat) : Decidable (validYMD y m d) := by
  unfold validYMD
  infer_instance

instance (hh mi ss : Nat) : Decidable (validHMS hh mi ss) := by
  unfold validHMS
  infer_instance

theorem digit_facts {c : Char} (h : isDigitChar c = true) :
    (c = '/') = False ∧ (c = ' ') = False := by
  constructor <;> (apply eq_false; rintro rfl; exact absurd h (by decide))

theorem readFixedDigits_two (c1 c2 : Char) (rest : List Char)
    (h1 : isDigitChar c1 = true) (h2 : isDigitChar c2 = true) :
    readFixedDigits 2 (c1 :: c2 :: rest) = some (digitsToNat [c1, c2], rest) := by
  simp [readFixedDigits, h1, h2]

theorem readFixedDigits_four (c1 c2 c3 c4 : Char) (rest : List Char)
    (h1 : isDigitChar c1 = true) (h2 : isDigitChar c2 = true)
    (h3 : isDigitChar c3 = true) (h4 : isDigitChar c4 = true) :
    readFixedDigits 4 (c1 :: c2 :: c3 :: c4 :: rest) =
      some (digitsToNat [c1, c2, c3, c4], rest) := by
  simp [readFixedDigits, h1, h2, h3, h4]

theorem readOffset_jst (tz : Int) :
    readOffset tz ['+', '0', '9', ':', '0', '0'] = some 540 := rfl

theorem jsNewDate_datetime (tz : Int)
    {y1 y2 y3 y4 m1 m2 d1 d2 h1 h2 i1 i2 s1 s2 : Char}
    (hy1 : isDigitChar y1 = true) (hy2 : isDigitChar y2 = true)
    (hy3 : isDigitChar y3 = true) (hy4 : isDigitChar y4 = true)
    (hm1 : isDigitChar m1 = true) (hm2 : isDigitChar m2 = true)
    (hd1 : isDigitChar d1 = true) (hd2 : isDigitChar d2 = true)
    (hh1 : isDigitChar h1 = true) (hh2 : isDigitChar h2 = true)
    (hi1 : isDigitChar i1 = true) (hi2 : isDigitChar i2 = true)
    (hs1 : isDigitChar s1 = true) (hs2 : isDigitChar s2 = true) :
    (jsNewDate tz [y1, y2, y3, y4, '-', m1, m2, '-', d1, d2, 'T', h1, h2, ':',
      i1, i2, ':', s1, s2, '+', '0', '9', ':', '0', '0']).isSome = true ↔
      (validYMD (digitsToNat [y1, y2, y3, y4]) (digitsToNat [m1, m2])
          (digitsToNat [d1, d2])
        ∧ validHMS (digitsToNat [h1, h2]) (digitsToNat [i1, i2])
          (digitsToNat [s1, s2])) := by
  have h4 := readFixedDigits_four y1 y2 y3 y4
    ['-', m1, m2, '-', d1, d2, 'T', h1, h2, ':', i1, i2, ':', s1, s2,
      '+', '0', '9', ':', '0', '0'] hy1 hy2 hy3 hy4
  have hmd : readMonthDay ('-' :: m1 :: m2 :: '-' :: d1 :: d2 :: 'T' :: h1 ::
      h2 :: ':' :: i1 :: i2 :: ':' :: s1 :: s2 :: '+' :: '0' :: '9' :: ':' ::
      '0' :: '0' :: []) = some (digitsToNat [m1, m2], digitsToNat [d1, d2],
        'T' :: h1 :: h2 :: ':' :: i1 :: i2 :: ':' :: s1 :: s2 :: '+' :: '0' ::
        '9' :: ':' :: '0' :: '0' :: []) := by
    simp only [readMonthDay,
      readFixedDigits_two m1 m2 _ hm1 hm2,
      readFixedDigits_two d1 d2 _ hd1 hd2]
  have hrt : readTime (h1 :: h2 :: ':' :: i1 :: i2 :: ':' :: s1 :: s2 :: '+' ::
      '0' :: '9' :: ':' :: '0' :: '0' :: []) =
      some (digitsToNat [h1, h2], digitsToNat [i1, i2], digitsToNat [s1, s2],
        0, ['+', '0', '9', ':', '0', '0']) := by
    simp only [readTime,
      readFixedDigits_two h1 h2 _ hh1 hh2,
      readFixedDigits_two i1 i2 _ hi1 hi2,
      readFixedDigits_two s1 s2 _ hs1 hs2]
    rfl
  simp only [jsNewDate, h4, hmd, hrt, readOffset_jst tz]
  by_cases hA : 1 ≤ digitsToNat [m1, m2] ∧ digitsToNat [m1, m2] ≤ 12 ∧
      1 ≤ digitsToNat [d1, d2] ∧ digitsToNat [d1, d2] ≤
        daysInMonth (digitsToNat [y1, y2, y3, y4]) (digitsToNat [m1, m2])
  · rw [if_pos hA]
    simp only [and_true]
    by_cases hB : (digitsToNat [h1, h2] ≤ 23 ∨ (digitsToNat [h1, h2] = 24 ∧
        digitsToNat [i1, i2] = 0 ∧ digitsToNat [s1, s2] = 0)) ∧
        digitsToNat [i1, i2] ≤ 59 ∧ digitsToNat [s1, s2] ≤ 59
    · simp only [if_pos hB, Option.isSome_some, true_iff]
      exact ⟨hA, hB⟩
    · simp only [if_neg hB, Option.isSome_none, Bool.false_eq_true, false_iff,
        not_and]
      intro h1x h2x
      exact hB h2x
  · rw [if_neg hA]
    simp only [Option.isSome_none, Bool.false_eq_true, false_iff, not_and]
    intro h1x
    exact absurd h1x hA

theorem jsNewDate_dateonly (tz : Int) {y1 y2 y3 y4 m1 m2 d1 d2 : Char}
    (hy1 : isDigitChar y1 = true) (hy2 : isDigitChar y2 = true)
    (hy3 : isDigitChar y3 = true) (hy4 : isDigitChar y4 = true)
    (hm1 : isDigitChar m1 = true) (hm2 : isDigitChar m2 = true)
    (hd1 : isDigitChar d1 = true) (hd2 : isDigitChar d2 = true) :
    (jsNewDate tz [y1, y2, y3, y4, '-', m1, m2, '-', d1, d2, 'T', '0', '0',
      ':', '0', '0', ':', '0', '0', '+', '0', '9', ':', '0', '0']).isSome =
      true ↔
      validYMD (digitsToNat [y1, y2, y3, y4]) (digitsToNat [m1, m2])
        (digitsToNat [d1, d2]) := by
  have h4 := readFixedDigits_four y1 y2 y3 y4
    ['-', m1, m2, '-', d1, d2, 'T', '0', '0', ':', '0', '0', ':', '0', '0',
      '+', '0', '9', ':', '0', '0'] hy1 hy2 hy3 hy4
  have hmd : readMonthDay ('-' :: m1 :: m2 :: '-' :: d1 :: d2 :: 'T' :: '0' ::
      '0' :: ':' :: '0' :: '0' :: ':' :: '0' :: '0' :: '+' :: '0' :: '9' ::
      ':' :: '0' :: '0' :: []) = some (digitsToNat [m1, m2],
        digitsToNat [d1, d2], 'T' :: '0' :: '0' :: ':' :: '0' :: '0' :: ':' ::
        '0' :: '0' :: '+' :: '0' :: '9' :: ':' :: '0' :: '0' :: []) := by
    simp only [readMonthDay,
      readFixedDigits_two m1 m2 _ hm1 hm2,
      readFixedDigits_two d1 d2 _ hd1 hd2]
  have hrt : readTime ['0', '0', ':', '0', '0', ':', '0', '0', '+', '0', '9',
      ':', '0', '0'] = some (0, 0, 0, 0, ['+', '0', '9', ':', '0', '0']) := rfl
  simp only [jsNewDate, h4, hmd, hrt, readOffset_jst tz]
  by_cases hA : 1 ≤ digitsToNat [m1, m2] ∧ digitsToNat [m1, m2] ≤ 12 ∧
      1 ≤ digitsToNat [d1, d2] ∧ digitsToNat [d1, d2] ≤
        daysInMonth (digitsToNat [y1, y2, y3, y4]) (digitsToNat [m1, m2])
  · rw [if_pos hA, if_pos (by decide)]
    simp only [Option.isSome_some, true_iff]
    exact hA
  · rw [if_neg hA]
    simp only [Option.isSome_none, Bool.false_eq_true, false_iff]
    exact fun h => hA h

/-- C6 fails as stated: the input "2025-10-24" is of neither recognized shape
(its separators are dashes, not slashes), yet `parseDate` returns a non-null
instant for it, because the transformed string "2025-10-24T00:00:00+09:00" is
a valid ISO date-time string. -/
theorem parseDate_shape_counterexample :
    specShapeDateTime "2025-10-24" = none
    ∧ specShapeDateOnly "2025-10-24" = none
    ∧ parseDate 540 (some "2025-10-24") = some 1761231600000 :=
  ⟨by decide, by decide, by decide⟩

/-- C6 (amended).  For every input of one of the two shapes
`YYYY/MM/DD HH:mm:ss` and `YYYY/MM/DD`, `parseDate` returns a non-null
instant exactly when the components denote a valid calendar date (and time);
it never throws (the embedding is a total function); but inputs of other
shapes may also yield a non-null instant. -/
theorem parseDate_shapes (tz : Int) (s : String) :
    (∀ y m d hh mi ss, specShapeDateTime s = some (y, m, d, hh, mi, ss) →
      ((parseDate tz (some s)).isSome = true ↔
        validYMD y m d ∧ validHMS hh mi ss))
    ∧ (∀ y m d, specShapeDateOnly s = some (y, m, d) →
      ((parseDate tz (some s)).isSome = true ↔ validYMD y m d)) := by
  constructor
  · intro y m d hh mi ss hshape
    unfold specShapeDateTime at hshape
    split at hshape
    · rename_i y1 y2 y3 y4 m1 m2 d1 d2 h1 h2 i1 i2 s1 s2 heq
      split at hshape
      · rename_i hdig
        simp only [Option.some.injEq, Prod.mk.injEq] at hshape
        obtain ⟨rfl, rfl, rfl, rfl, rfl, rfl⟩ := hshape
        simp only [List.all_cons, List.all_nil, Bool.and_eq_true] at hdig
        obtain ⟨hy1, hy2, hy3, hy4, hm1, hm2, hd1, hd2, hh1, hh2, hi1, hi2,
          hs1, hs2, -⟩ := hdig
        have hsne : ¬ s = "" := by
          intro h
          rw [h] at heq
          have h0 : ("" : String).data = [] := rfl
          rw [h0] at heq
          exact absurd heq (by simp)
        have hslash : slashesToDashes s.data =
            [y1, y2, y3, y4, '-', m1, m2, '-', d1, d2, ' ', h1, h2, ':',
              i1, i2, ':', s1, s2] := by
          rw [heq]
          simp [slashesToDashes, (digit_facts hy1).1, (digit_facts hy2).1,
            (digit_facts hy3).1, (digit_facts hy4).1, (digit_facts hm1).1,
            (digit_facts hm2).1, (digit_facts hd1).1, (digit_facts hd2).1,
            (digit_facts hh1).1, (digit_facts hh2).1, (digit_facts hi1).1,
            (digit_facts hi2).1, (digit_facts hs1).1, (digit_facts hs2).1]
        have hspace : hasSpaceChar [y1, y2, y3, y4, '-', m1, m2, '-', d1, d2,
            ' ', h1, h2, ':', i1, i2, ':', s1, s2] = true := by
          simp [hasSpaceChar, (digit_facts hy1).2, (digit_facts hy2).2,
            (digit_facts hy3).2, (digit_facts hy4).2, (digit_facts hm1).2,
            (digit_facts hm2).2, (digit_facts hd1).2, (digit_facts hd2).2]
        have hrepl : replaceFirstSpace [y1, y2, y3, y4, '-', m1, m2, '-', d1,
            d2, ' ', h1, h2, ':', i1, i2, ':', s1, s2] =
            [y1, y2, y3, y4, '-', m1, m2, '-', d1, d2, 'T', h1, h2, ':',
              i1, i2, ':', s1, s2] := by
          simp [replaceFirstSpace, (digit_facts hy1).2, (digit_facts hy2).2,
            (digit_facts hy3).2, (digit_facts hy4).2, (digit_facts hm1).2,
            (digit_facts hm2).2, (digit_facts hd1).2, (digit_facts hd2).2]
        simp only [parseDate, if_neg hsne, hslash, hspace, if_true, hrepl,
          List.cons_append, List.nil_append]
        exact jsNewDate_datetime tz hy1 hy2 hy3 hy4 hm1 hm2 hd1 hd2 hh1 hh2
          hi1 hi2 hs1 hs2
      · exact absurd hshape (by simp)
    · exact absurd hshape (by simp)
  · intro y m d hshape
    unfold specShapeDateOnly at hshape
    split at hshape
    · rename_i y1 y2 y3 y4 m1 m2 d1 d2 heq
      split at hshape
      · rename_i hdig
        simp only [Option.some.injEq, Prod.mk.injEq] at hshape
        obtain ⟨rfl, rfl, rfl⟩ := hshape
        simp only [List.all_cons, List.all_nil, Bool.and_eq_true] at hdig
        obtain ⟨hy1, hy2, hy3, hy4, hm1, hm2, hd1, hd2, -⟩ := hdig
        have hsne : ¬ s = "" := by
          intro h
          rw [h] at heq
          have h0 : ("" : String).data = [] := rfl
          rw [h0] at heq
          exact absurd heq (by simp)
        have hslash : slashesToDashes s.data =
            [y1, y2, y3, y4, '-', m1, m2, '-', d1, d2] := by
          rw [heq]
          simp [slashesToDashes, (digit_facts hy1).1, (digit_facts hy2).1,
            (digit_facts hy3).1, (digit_facts hy4).1, (digit_facts hm1).1,
            (digit_facts hm2).1, (digit_facts hd1).1, (digit_facts hd2).1]
        have hspace : hasSpaceChar [y1, y2, y3, y4, '-', m1, m2, '-', d1, d2] =
            false := by
          simp [hasSpaceChar, (digit_facts hy1).2, (digit_facts hy2).2,
            (digit_facts hy3).2, (digit_facts hy4).2, (digit_facts hm1).2,
            (digit_facts hm2).2, (digit_facts hd1).2, (digit_facts hd2).2]
        simp only [parseDate, if_neg hsne, hslash, hspace, Bool.false_eq_true,
          if_false, List.cons_append, List.nil_append]
        exact jsNewDate_dateonly tz hy1 hy2 hy3 hy4 hm1 hm2 hd1 hd2
      · exact absurd hshape (by simp)
    · exact absurd hshape (by simp)

/-- Witness for C6 (amended): a valid timestamp parses, an invalid calendar
date (February 30) does not. -/
theorem parseDate_shapes_witness :
    (parseDate 540 (some "2025/10/24 10:59:25")).isSome = true
    ∧ ¬ (parseDate 540 (some "2025/02/30")).isSome = true := by
  constructor
  · exact ((parseDate_shapes 540 "2025/10/24 10:59:25").1 2025 10 24 10 59 25
      (by decide)).mpr (by decide)
  · intro h
    have h2 := ((parseDate_shapes 540 "2025/02/30").2 2025 2 30 (by decide)).mp h
    exact absurd h2 (by decide)

end PayPayCsv
